import Mathlib

/-!
# Verification of `dependency_sort.py`

A shallow embedding of the shared-library dependency sorter:

* Python `dict`s (and `defaultdict(list)`) are association lists
  (`List (String × α)`) in insertion order, with first-match lookup;
* Python strings are `String`, and the string operations used by the
  code (`endswith`, substring `in`, `split`) are re-implemented over
  `List Char` so that everything evaluates by kernel reduction;
* the external `readelf` collaborator is an input: for each library
  name it either produces the list of output lines or signals a
  `CalledProcessError`;
* a Python exception that the code does not catch (`KeyError` from
  `in_degree[dep]`, `IndexError` from `line.split("[")[1]`) is
  modelled as `Option`-failure (`none`);
* `os.listdir` results are an input list of directory entries, each a
  file name together with the immediate symlink target when the entry
  is a symbolic link.
-/

namespace DepSort

/-! ## Python-string primitives -/

/-- Substring test: Python `sub in s`, over the character list. -/
def hasSub (pat : List Char) : List Char → Bool
  | [] => pat.isPrefixOf []
  | c :: rest => pat.isPrefixOf (c :: rest) || hasSub pat rest

/-- Python `s.split(sep)` for a one-character separator: splits at every
occurrence, keeping empty pieces; the result is always nonempty. -/
def splitOnChar (sep : Char) : List Char → List (List Char)
  | [] => [[]]
  | c :: rest =>
    match splitOnChar sep rest with
    | [] => [[]]
    | h :: t => if c = sep then [] :: h :: t else (c :: h) :: t

/-! ## `is_shared_library` (lines 6–10)

`return filename.endswith(".so") or ".so." in filename` -/

def is_shared_library (filename : String) : Bool :=
  List.isSuffixOf ".so".data filename.data || hasSub ".so.".data filename.data

/-! ## Directory scan input and `resolve_symlinks` (lines 12–31) -/

/-- One `os.listdir` entry: the file name, and the immediate
`os.readlink` target when the entry is a symbolic link. -/
structure DirEntry where
  name : String
  linkTarget : Option String
  deriving DecidableEq, Repr

/-- Python `dict` insertion `d[k] = v`: overwrite in place, append new
keys at the end. -/
def dictInsert : List (String × String) → String → String → List (String × String)
  | [], k, v => [(k, v)]
  | (k', v') :: rest, k, v =>
    if k' = k then (k, v) :: rest else (k', v') :: dictInsert rest k v

/-- The loop body of `resolve_symlinks`, threading the two accumulators
(`symlink_map`, `shared_libraries`) through the directory entries in
listing order. -/
def resolveAux : List DirEntry → List (String × String) → List String →
    List (String × String) × List String
  | [], sm, sl => (sm, sl)
  | e :: rest, sm, sl =>
    let sm := match e.linkTarget with
      | some target => dictInsert sm e.name target
      | none => sm
    let sl := if is_shared_library e.name then sl ++ [e.name] else sl
    resolveAux rest sm sl

/-- `resolve_symlinks`: returns the symlink map and the list of
shared-library names, in listing order. -/
def resolve_symlinks (entries : List DirEntry) :
    List (String × String) × List String :=
  resolveAux entries [] []

/-! ## The `readelf` collaborator and `get_dependencies` (lines 33–49) -/

/-- Outcome of `subprocess.check_output(["readelf", "-d", lib_path])`:
either the output, given as its list of lines, or a
`CalledProcessError`. -/
inductive ReadelfResult where
  | ok (lines : List String)
  | err
  deriving DecidableEq, Repr

/-- `dep = line.split("[")[1].split("]")[0]`.  Indexing `[1]` raises
`IndexError` when the line has no `[`; modelled as `none`. -/
def parseNeededLine (line : String) : Option String :=
  match splitOnChar '[' line.data with
  | _ :: second :: _ => some (String.mk ((splitOnChar ']' second).headD []))
  | _ => none

/-- The parsing loop of `get_dependencies`: for every line containing
`"NEEDED"`, extract the bracketed name and keep it when it is an
available library.  `none` models the uncaught `IndexError`. -/
def collectDeps (available : List String) : List String → Option (List String)
  | [] => some []
  | line :: rest =>
    if hasSub "NEEDED".data line.data then
      match parseNeededLine line with
      | none => none
      | some dep =>
        match collectDeps available rest with
        | none => none
        | some deps => some (if dep ∈ available then dep :: deps else deps)
    else
      collectDeps available rest

/-- `get_dependencies(lib_path, available_libraries)`: on collaborator
success, parse the output lines (an uncaught `IndexError` is `none`);
on `CalledProcessError`, print a diagnostic and return `[]`.  The
second component of the result is the list of recorded diagnostics. -/
def get_dependencies (lib : String) (res : ReadelfResult)
    (available : List String) : Option (List String × List String) :=
  match res with
  | .ok lines =>
    match collectDeps available lines with
    | none => none
    | some deps => some (deps, [])
  | .err => some ([], ["Error reading dependencies for " ++ lib])

/-! ## `build_dependency_graph` (lines 51–72) -/

/-- A dependency graph: the `defaultdict(list)` mapping each library to
its outgoing edge list, as an association list in insertion order. -/
abbrev Graph := List (String × List String)

/-- The keys of a dict, in insertion order. -/
def keysOf (g : List (String × α)) : List String := g.map Prod.fst

/-- First-match lookup, Python `d[k]` for a present key. -/
def alookup : List (String × α) → String → Option α
  | [], _ => none
  | (k', v) :: rest, k => if k' = k then some v else alookup rest k

/-- `defaultdict(list)` update `g[k].append/extend(vs)`: extend the
existing entry, or create the key (at the end) when absent. -/
def dictExtend : Graph → String → List String → Graph
  | [], k, vs => [(k, vs)]
  | (k', vs') :: rest, k, vs =>
    if k' = k then (k', vs' ++ vs) :: rest else (k', vs') :: dictExtend rest k vs

/-- First loop of `build_dependency_graph`: for every symlink whose
target is an available library, `dependency_graph[symlink].append(target)`. -/
def addSymlinkEdges (available : List String) :
    Graph → List (String × String) → Graph
  | g, [] => g
  | g, (s, t) :: rest =>
    addSymlinkEdges available (if t ∈ available then dictExtend g s [t] else g) rest

/-- Second loop of `build_dependency_graph`: for each shared library,
`dependency_graph[lib].extend(get_dependencies(...))`, accumulating the
diagnostics; an uncaught `IndexError` inside `get_dependencies` aborts
the run (`none`). -/
def addLibDeps (readelf : String → ReadelfResult) (available : List String) :
    Graph → List String → List String → Option (Graph × List String)
  | g, diags, [] => some (g, diags)
  | g, diags, lib :: rest =>
    match get_dependencies lib (readelf lib) available with
    | none => none
    | some (deps, ds) =>
      addLibDeps readelf available (dictExtend g lib deps) (diags ++ ds) rest

/-- `build_dependency_graph(directory)`: the directory is given by its
scan result `entries` and by the per-file collaborator results
`readelf` (keyed by file name; the path prefix is constant).  Returns
the graph and the recorded diagnostics, or `none` when an uncaught
exception escapes. -/
def build_dependency_graph (entries : List DirEntry)
    (readelf : String → ReadelfResult) : Option (Graph × List String) :=
  let sm_sl := resolve_symlinks entries
  let available := sm_sl.2
  let g1 := addSymlinkEdges available [] sm_sl.1
  addLibDeps readelf available g1 [] sm_sl.2

/-! ## `topological_sort` (lines 74–98) -/

/-- In-degree map: Python `dict` from node to `int`. -/
abbrev DegMap := List (String × Int)

/-- `{node: 0 for node in dependency_graph}` (dict comprehension,
overwrite semantics). -/
def zeroDegrees (g : Graph) : DegMap :=
  g.foldl (fun d p =>
    match d, p with
    | d, (k, _) => insertZero d k) []
where
  /-- `d[k] = 0`. -/
  insertZero : DegMap → String → DegMap
  | [], k => [(k, 0)]
  | (k', v) :: rest, k =>
    if k' = k then (k, 0) :: rest else (k', v) :: insertZero rest k

/-- `d[k] = f(d[k])` on a plain dict: `none` is the `KeyError` raised
when `k` is absent. -/
def aupdate (f : Int → Int) : DegMap → String → Option DegMap
  | [], _ => none
  | (k', v) :: rest, k =>
    if k' = k then some ((k', f v) :: rest)
    else (aupdate f rest k).map (fun r => (k', v) :: r)

/-- `for dep in deps: in_degree[dep] += 1` (one edge list). -/
def bumpAll : DegMap → List String → Option DegMap
  | d, [] => some d
  | d, dep :: rest =>
    match aupdate (· + 1) d dep with
    | none => none
    | some d' => bumpAll d' rest

/-- `for dependencies in dependency_graph.values(): for dep in ...`. -/
def addAllEdges : DegMap → List (List String) → Option DegMap
  | d, [] => some d
  | d, deps :: rest =>
    match bumpAll d deps with
    | none => none
    | some d' => addAllEdges d' rest

/-- Lines 78–81: build the in-degree dict; `none` is the uncaught
`KeyError` on an edge target that is not a node. -/
def computeInDegree (g : Graph) : Option DegMap :=
  addAllEdges (zeroDegrees g) (g.map Prod.snd)

/-- Line 84: `[node for node, degree in in_degree.items() if degree == 0]`. -/
def initialQueue (deg : DegMap) : List String :=
  (deg.filter (fun p => decide (p.2 = 0))).map Prod.fst

/-- `dependency_graph[lib]` on a `defaultdict(list)`: return the edge
list, inserting a fresh empty entry when the key is absent. -/
def dget (g : Graph) (k : String) : List String × Graph :=
  match alookup g k with
  | some vs => (vs, g)
  | none => ([], g ++ [(k, [])])

/-- Inner `for dep in dependency_graph[lib]` loop:
`in_degree[dep] -= 1; if in_degree[dep] == 0: queue.append(dep)`. -/
def stepEdges : List String → DegMap → List String → Option (DegMap × List String)
  | [], deg, queue => some (deg, queue)
  | dep :: rest, deg, queue =>
    match aupdate (· - 1) deg dep with
    | none => none
    | some deg' =>
      stepEdges rest deg'
        (if alookup deg' dep = some 0 then queue ++ [dep] else queue)

/-- The `while queue:` loop.  `fuel` bounds the number of iterations (a
modelling artifact: with `fuel = ` the number of graph entries the loop
always finishes, see `kahnLoop_run`); the graph is threaded because
`dependency_graph[lib]` can, in principle, grow a `defaultdict`.
Returns the emitted order and final in-degree map (or `none` on a
`KeyError` / exhausted fuel) together with the final graph. -/
def kahnLoop : Nat → List String → DegMap → Graph → List String →
    Option (List String × DegMap) × Graph
  | _, [], deg, g, acc => (some (acc, deg), g)
  | 0, _ :: _, _, g, _ => (none, g)
  | fuel + 1, lib :: queue, deg, g, acc =>
    match dget g lib with
    | (edges, g') =>
      match stepEdges edges deg queue with
      | none => (none, g')
      | some (deg', queue') => kahnLoop fuel queue' deg' g' (acc ++ [lib])

/-- Result of `topological_sort`: the sorted list, the
`ValueError("Cycle detected in the dependency graph!")`, or an
uncaught `KeyError`. -/
inductive SortResult where
  | ok (order : List String)
  | cycleDetected
  | keyError
  deriving DecidableEq, Repr

/-- `topological_sort(dependency_graph)` (lines 74–98), returning the
outcome together with the final state of the graph dict. -/
def topological_sort (g : Graph) : SortResult × Graph :=
  match computeInDegree g with
  | none => (.keyError, g)
  | some deg =>
    match kahnLoop g.length (initialQueue deg) deg g [] with
    | (none, g') => (.keyError, g')
    | (some (order, _), g') =>
      if order.length ≠ g'.length then (.cycleDetected, g')
      else (.ok order, g')

/-! ## Derived notions used to state the spec's properties -/

/-- Number of edge occurrences of `g` whose target is `k` (counted with
multiplicity over every entry's edge list). -/
def totalInto (g : Graph) (k : String) : Nat :=
  (g.map (fun p => p.2.count k)).sum

/-- Number of edge occurrences into `k` whose source entry's key lies
in `srcs`. -/
def intoFrom (g : Graph) (srcs : List String) (k : String) : Nat :=
  ((g.filter (fun p => decide (p.1 ∈ srcs))).map (fun p => p.2.count k)).sum

/-- The spec's graph invariant: every edge target is a node. -/
def ClosedG (g : Graph) : Prop :=
  ∀ p ∈ g, ∀ b ∈ p.2, b ∈ keysOf g

/-- There is an edge occurrence `a → b` in `g`. -/
def edgeOcc (g : Graph) (a b : String) : Prop :=
  ∃ p ∈ g, p.1 = a ∧ b ∈ p.2

/-- The graph has no directed cycle (no node reaches itself through a
nonempty chain of edges). -/
def AcyclicG (g : Graph) : Prop :=
  ∀ a, ¬ Relation.TransGen (edgeOcc g) a a

/-- Number of edge occurrences `a → k` of `g` whose source entry has
key `a`. -/
def outCount (g : Graph) (a k : String) : Nat :=
  ((g.filter (fun p => decide (p.1 = a))).map (fun p => p.2.count k)).sum

/-- The invariant of the `while queue:` loop of `topological_sort`, for
the fixed input graph `g₀`: `deg` is the live in-degree dict, `queue`
the live frontier, `acc` the emitted prefix of the output. -/
structure KahnInv (g₀ : Graph) (queue : List String) (deg : DegMap)
    (acc : List String) : Prop where
  keys_eq : keysOf deg = keysOf g₀
  deg_val : ∀ k ∈ keysOf g₀, alookup deg k =
      some ((totalInto g₀ k : Int) - (intoFrom g₀ acc k : Int))
  nodup : (acc ++ queue).Nodup
  subset : ∀ x ∈ acc ++ queue, x ∈ keysOf g₀
  zero_iff : ∀ k ∈ keysOf g₀,
      (k ∈ acc ++ queue ↔ intoFrom g₀ acc k = totalInto g₀ k)
  edge_queue : ∀ a b, edgeOcc g₀ a b → b ∈ queue → a ∈ acc
  edge_acc : ∀ a b, edgeOcc g₀ a b → b ∈ acc → [a, b].Sublist acc

/-- The `NEEDED` names parsed from the collaborator's output lines,
before the availability filter (`none` on a malformed line). -/
def neededNames : List String → Option (List String)
  | [] => some []
  | line :: rest =>
    if hasSub "NEEDED".data line.data then
      match parseNeededLine line with
      | none => none
      | some dep => (neededNames rest).map (fun ds => dep :: ds)
    else neededNames rest

/-! ## String lemmas -/

theorem hasSub_iff (pat l : List Char) : hasSub pat l = true ↔ pat <:+: l := by
  induction l with
  | nil =>
    simp [hasSub, List.isPrefixOf_iff_prefix]
  | cons c rest ih =>
    simp only [hasSub, Bool.or_eq_true, List.isPrefixOf_iff_prefix, ih]
    constructor
    · rintro (h | h)
      · exact h.isInfix
      · exact h.trans (List.infix_cons (List.infix_refl rest))
    · intro h
      rcases List.infix_iff_prefix_suffix.mp h with ⟨t, hp, hs⟩
      rcases List.suffix_cons_iff.mp hs with h' | h'
      · exact Or.inl (h' ▸ hp)
      · exact Or.inr (List.infix_iff_prefix_suffix.mpr ⟨t, hp, h'⟩)

/-! ## Association-list lemmas -/

theorem keysOf_nil {α : Type} : keysOf ([] : List (String × α)) = [] := rfl

theorem keysOf_cons {α : Type} (p : String × α) (rest : List (String × α)) :
    keysOf (p :: rest) = p.1 :: keysOf rest := rfl

theorem keysOf_append {α : Type} (l₁ l₂ : List (String × α)) :
    keysOf (l₁ ++ l₂) = keysOf l₁ ++ keysOf l₂ := by
  simp [keysOf]

theorem alookup_isSome_iff {α : Type} (g : List (String × α)) (k : String) :
    (alookup g k).isSome = true ↔ k ∈ keysOf g := by
  induction g with
  | nil => simp [alookup, keysOf_nil]
  | cons p rest ih =>
    obtain ⟨k', v⟩ := p
    rw [keysOf_cons]
    by_cases h : k' = k
    · subst h; simp [alookup]
    · simp only [alookup, if_neg h, ih, List.mem_cons]
      exact (or_iff_right (fun h' => h h'.symm)).symm

theorem alookup_eq_none_iff {α : Type} (g : List (String × α)) (k : String) :
    alookup g k = none ↔ k ∉ keysOf g := by
  rw [← alookup_isSome_iff]
  cases alookup g k <;> simp

theorem keysOf_dictExtend_mem (g : Graph) (k : String) (vs : List String)
    (hk : k ∈ keysOf g) : keysOf (dictExtend g k vs) = keysOf g := by
  induction g with
  | nil => simp [keysOf_nil] at hk
  | cons p rest ih =>
    obtain ⟨k', vs'⟩ := p
    by_cases h : k' = k
    · simp [dictExtend, if_pos h, keysOf_cons, h]
    · rw [keysOf_cons] at hk
      rcases List.mem_cons.mp hk with h' | h'
      · exact (h h'.symm).elim
      · simp [dictExtend, if_neg h, keysOf_cons, ih h']

theorem keysOf_dictExtend_not_mem (g : Graph) (k : String) (vs : List String)
    (hk : k ∉ keysOf g) : keysOf (dictExtend g k vs) = keysOf g ++ [k] := by
  induction g with
  | nil => simp [dictExtend, keysOf]
  | cons p rest ih =>
    obtain ⟨k', vs'⟩ := p
    rw [keysOf_cons] at hk
    have h1 : k' ≠ k := fun h => hk (h ▸ List.mem_cons_self _ _)
    have h2 : k ∉ keysOf rest := fun h => hk (List.mem_cons_of_mem _ h)
    simp [dictExtend, if_neg h1, keysOf_cons, ih h2]

theorem mem_keysOf_dictExtend (g : Graph) (k : String) (vs : List String)
    (x : String) : x ∈ keysOf (dictExtend g k vs) ↔ x ∈ keysOf g ∨ x = k := by
  by_cases hk : k ∈ keysOf g
  · rw [keysOf_dictExtend_mem g k vs hk]
    constructor
    · exact Or.inl
    · rintro (h | h)
      · exact h
      · exact h ▸ hk
  · rw [keysOf_dictExtend_not_mem g k vs hk]
    simp

theorem nodup_keysOf_dictExtend (g : Graph) (k : String) (vs : List String)
    (h : (keysOf g).Nodup) : (keysOf (dictExtend g k vs)).Nodup := by
  by_cases hk : k ∈ keysOf g
  · rw [keysOf_dictExtend_mem g k vs hk]; exact h
  · rw [keysOf_dictExtend_not_mem g k vs hk]
    simp [List.nodup_append, h, hk]

theorem edges_dictExtend (g : Graph) (k : String) (vs : List String)
    (P : String → Prop) (hg : ∀ p ∈ g, ∀ b ∈ p.2, P b) (hvs : ∀ b ∈ vs, P b) :
    ∀ p ∈ dictExtend g k vs, ∀ b ∈ p.2, P b := by
  induction g with
  | nil =>
    intro p hp
    simp only [dictExtend, List.mem_singleton] at hp
    subst hp; exact hvs
  | cons q rest ih =>
    obtain ⟨k', vs'⟩ := q
    have hrest : ∀ p ∈ rest, ∀ b ∈ p.2, P b :=
      fun q hq => hg q (List.mem_cons_of_mem _ hq)
    by_cases h : k' = k
    · intro p hp
      rw [dictExtend, if_pos h] at hp
      rcases List.mem_cons.mp hp with hp | hp
      · subst hp
        intro b hb
        rcases List.mem_append.mp hb with hb | hb
        · exact hg (k', vs') (List.mem_cons_self _ _) b hb
        · exact hvs b hb
      · exact hrest p hp
    · intro p hp
      rw [dictExtend, if_neg h] at hp
      rcases List.mem_cons.mp hp with hp | hp
      · subst hp; exact hg (k', vs') (List.mem_cons_self _ _)
      · exact ih hrest p hp

theorem alookup_dictExtend_ne (g : Graph) (k : String) (vs : List String)
    (x : String) (hx : x ≠ k) : alookup (dictExtend g k vs) x = alookup g x := by
  have hkx : k ≠ x := fun h => hx h.symm
  induction g with
  | nil => simp [dictExtend, alookup, hkx]
  | cons p rest ih =>
    obtain ⟨k', vs'⟩ := p
    by_cases h : k' = k
    · subst h
      simp [dictExtend, alookup, hkx]
    · by_cases h' : k' = x <;> simp [dictExtend, alookup, h, h', hx, hkx, ih]

theorem alookup_dictExtend_self (g : Graph) (k : String) (vs : List String) :
    alookup (dictExtend g k vs) k =
      some ((alookup g k).getD [] ++ vs) := by
  induction g with
  | nil => simp [dictExtend, alookup]
  | cons p rest ih =>
    obtain ⟨k', vs'⟩ := p
    by_cases h : k' = k <;> simp [dictExtend, alookup, h, ih]

/-! ## Lemmas about the graph-building phases -/

theorem build_eq (entries : List DirEntry) (readelf : String → ReadelfResult) :
    build_dependency_graph entries readelf =
      addLibDeps readelf (resolve_symlinks entries).2
        (addSymlinkEdges (resolve_symlinks entries).2 [] (resolve_symlinks entries).1)
        [] (resolve_symlinks entries).2 := rfl

theorem mem_keysOf_addSymlinkEdges (avail : List String)
    (sm : List (String × String)) :
    ∀ (g : Graph) (x : String),
      x ∈ keysOf (addSymlinkEdges avail g sm) ↔
        x ∈ keysOf g ∨ ∃ t, (x, t) ∈ sm ∧ t ∈ avail := by
  induction sm with
  | nil => intro g x; simp [addSymlinkEdges]
  | cons p rest ih =>
    obtain ⟨s, t⟩ := p
    intro g x
    simp only [addSymlinkEdges]
    by_cases ht : t ∈ avail
    · rw [if_pos ht, ih, mem_keysOf_dictExtend]
      constructor
      · rintro ((h | h) | ⟨t', h1, h2⟩)
        · exact Or.inl h
        · exact Or.inr ⟨t, by simp [h], ht⟩
        · exact Or.inr ⟨t', List.mem_cons_of_mem _ h1, h2⟩
      · rintro (h | ⟨t', h1, h2⟩)
        · exact Or.inl (Or.inl h)
        · rcases List.mem_cons.mp h1 with h1 | h1
          · obtain ⟨hx, -⟩ := Prod.mk.injEq .. ▸ h1
            exact Or.inl (Or.inr hx)
          · exact Or.inr ⟨t', h1, h2⟩
    · rw [if_neg ht, ih]
      apply or_congr_right
      constructor
      · rintro ⟨t', h1, h2⟩
        exact ⟨t', List.mem_cons_of_mem _ h1, h2⟩
      · rintro ⟨t', h1, h2⟩
        rcases List.mem_cons.mp h1 with h1 | h1
        · obtain ⟨-, ht'⟩ := Prod.mk.injEq .. ▸ h1
          exact absurd (ht' ▸ h2) ht
        · exact ⟨t', h1, h2⟩

theorem nodup_addSymlinkEdges (avail : List String)
    (sm : List (String × String)) :
    ∀ (g : Graph), (keysOf g).Nodup →
      (keysOf (addSymlinkEdges avail g sm)).Nodup := by
  induction sm with
  | nil => intro g hg; exact hg
  | cons p rest ih =>
    obtain ⟨s, t⟩ := p
    intro g hg
    simp only [addSymlinkEdges]
    by_cases ht : t ∈ avail
    · rw [if_pos ht]
      exact ih _ (nodup_keysOf_dictExtend g s [t] hg)
    · rw [if_neg ht]
      exact ih g hg

theorem edges_addSymlinkEdges (avail : List String)
    (sm : List (String × String)) :
    ∀ (g : Graph), (∀ p ∈ g, ∀ b ∈ p.2, b ∈ avail) →
      ∀ p ∈ addSymlinkEdges avail g sm, ∀ b ∈ p.2, b ∈ avail := by
  induction sm with
  | nil => intro g hg; exact hg
  | cons q rest ih =>
    obtain ⟨s, t⟩ := q
    intro g hg
    simp only [addSymlinkEdges]
    by_cases ht : t ∈ avail
    · rw [if_pos ht]
      refine ih _ (edges_dictExtend g s [t] _ hg ?_)
      intro b hb
      rw [List.mem_singleton] at hb
      exact hb ▸ ht
    · rw [if_neg ht]
      exact ih g hg

theorem lookup_addSymlinkEdges (avail : List String)
    (sm : List (String × String)) :
    ∀ (g : Graph) (x d : String),
      d ∈ (alookup (addSymlinkEdges avail g sm) x).getD [] →
      d ∈ (alookup g x).getD [] ∨ ((x, d) ∈ sm ∧ d ∈ avail) := by
  induction sm with
  | nil => intro g x d h; exact Or.inl h
  | cons q rest ih =>
    obtain ⟨s, t⟩ := q
    intro g x d h
    simp only [addSymlinkEdges] at h
    by_cases ht : t ∈ avail
    · rw [if_pos ht] at h
      rcases ih _ x d h with h' | ⟨h1, h2⟩
      · by_cases hx : x = s
        · subst hx
          rw [alookup_dictExtend_self] at h'
          simp only [Option.getD_some] at h'
          rcases List.mem_append.mp h' with h' | h'
          · exact Or.inl h'
          · rw [List.mem_singleton] at h'
            exact Or.inr ⟨by simp [h'], h' ▸ ht⟩
        · rw [alookup_dictExtend_ne g s [t] x hx] at h'
          exact Or.inl h'
      · exact Or.inr ⟨List.mem_cons_of_mem _ h1, h2⟩
    · rw [if_neg ht] at h
      rcases ih g x d h with h' | ⟨h1, h2⟩
      · exact Or.inl h'
      · exact Or.inr ⟨List.mem_cons_of_mem _ h1, h2⟩

theorem collectDeps_eq_filter (avail : List String) (lines : List String) :
    collectDeps avail lines =
      (neededNames lines).map (List.filter (fun d => decide (d ∈ avail))) := by
  induction lines with
  | nil => rfl
  | cons line rest ih =>
    simp only [collectDeps, neededNames]
    by_cases hN : hasSub "NEEDED".data line.data = true
    · rw [if_pos hN, if_pos hN]
      cases hp : parseNeededLine line with
      | none => rfl
      | some dep =>
        rw [ih]
        cases neededNames rest with
        | none => rfl
        | some ds =>
          simp only [Option.map_some']
          by_cases hd : dep ∈ avail <;> simp [List.filter, hd]
    · rw [if_neg hN, if_neg hN, ih]

theorem collectDeps_mem (avail : List String) (lines : List String)
    (deps : List String) (h : collectDeps avail lines = some deps) :
    ∀ d ∈ deps, d ∈ avail := by
  rw [collectDeps_eq_filter] at h
  cases hn : neededNames lines with
  | none => rw [hn] at h; exact absurd h (by simp)
  | some ds =>
    rw [hn] at h
    simp only [Option.map_some', Option.some.injEq] at h
    intro d hd
    rw [← h] at hd
    simpa using (List.mem_filter.mp hd).2

theorem get_dependencies_mem (lib : String) (res : ReadelfResult)
    (avail : List String) (deps diags : List String)
    (h : get_dependencies lib res avail = some (deps, diags)) :
    ∀ d ∈ deps, d ∈ avail := by
  cases res with
  | ok lines =>
    simp only [get_dependencies] at h
    cases hc : collectDeps avail lines with
    | none => rw [hc] at h; exact absurd h (by simp)
    | some ds =>
      rw [hc] at h
      simp only [Option.some.injEq, Prod.mk.injEq] at h
      exact h.1 ▸ collectDeps_mem avail lines ds hc
  | err =>
    simp only [get_dependencies, Option.some.injEq, Prod.mk.injEq] at h
    rw [← h.1]
    intro d hd
    exact absurd hd (List.not_mem_nil d)

theorem addLibDeps_mem_keys (readelf : String → ReadelfResult)
    (avail : List String) :
    ∀ (libs : List String) (g : Graph) (diags : List String)
      (g' : Graph) (diags' : List String),
      addLibDeps readelf avail g diags libs = some (g', diags') →
      ∀ x, (x ∈ keysOf g' ↔ x ∈ keysOf g ∨ x ∈ libs) := by
  intro libs
  induction libs with
  | nil =>
    intro g diags g' diags' h x
    simp only [addLibDeps, Option.some.injEq, Prod.mk.injEq] at h
    simp [← h.1]
  | cons lib rest ih =>
    intro g diags g' diags' h x
    simp only [addLibDeps] at h
    cases hd : get_dependencies lib (readelf lib) avail with
    | none => rw [hd] at h; exact absurd h (by simp)
    | some p =>
      rw [hd] at h
      rw [ih _ _ _ _ h x, mem_keysOf_dictExtend]
      constructor
      · rintro ((h' | h') | h')
        · exact Or.inl h'
        · exact Or.inr (h' ▸ List.mem_cons_self _ _)
        · exact Or.inr (List.mem_cons_of_mem _ h')
      · rintro (h' | h')
        · exact Or.inl (Or.inl h')
        · rcases List.mem_cons.mp h' with h' | h'
          · exact Or.inl (Or.inr h')
          · exact Or.inr h'

theorem addLibDeps_nodup (readelf : String → ReadelfResult)
    (avail : List String) :
    ∀ (libs : List String) (g : Graph) (diags : List String)
      (g' : Graph) (diags' : List String),
      addLibDeps readelf avail g diags libs = some (g', diags') →
      (keysOf g).Nodup → (keysOf g').Nodup := by
  intro libs
  induction libs with
  | nil =>
    intro g diags g' diags' h hg
    simp only [addLibDeps, Option.some.injEq, Prod.mk.injEq] at h
    exact h.1 ▸ hg
  | cons lib rest ih =>
    intro g diags g' diags' h hg
    simp only [addLibDeps] at h
    cases hd : get_dependencies lib (readelf lib) avail with
    | none => rw [hd] at h; exact absurd h (by simp)
    | some p =>
      rw [hd] at h
      exact ih _ _ _ _ h (nodup_keysOf_dictExtend g lib p.1 hg)

theorem addLibDeps_edges (readelf : String → ReadelfResult)
    (avail : List String) :
    ∀ (libs : List String) (g : Graph) (diags : List String)
      (g' : Graph) (diags' : List String),
      addLibDeps readelf avail g diags libs = some (g', diags') →
      (∀ p ∈ g, ∀ b ∈ p.2, b ∈ avail) →
      ∀ p ∈ g', ∀ b ∈ p.2, b ∈ avail := by
  intro libs
  induction libs with
  | nil =>
    intro g diags g' diags' h hg
    simp only [addLibDeps, Option.some.injEq, Prod.mk.injEq] at h
    exact h.1 ▸ hg
  | cons lib rest ih =>
    intro g diags g' diags' h hg
    simp only [addLibDeps] at h
    cases hd : get_dependencies lib (readelf lib) avail with
    | none => rw [hd] at h; exact absurd h (by simp)
    | some p =>
      rw [hd] at h
      exact ih _ _ _ _ h
        (edges_dictExtend g lib p.1 _ hg
          (get_dependencies_mem lib (readelf lib) avail p.1 p.2
            (by rw [hd])))

theorem addLibDeps_diags_mono (readelf : String → ReadelfResult)
    (avail : List String) :
    ∀ (libs : List String) (g : Graph) (diags : List String)
      (g' : Graph) (diags' : List String),
      addLibDeps readelf avail g diags libs = some (g', diags') →
      ∀ x ∈ diags, x ∈ diags' := by
  intro libs
  induction libs with
  | nil =>
    intro g diags g' diags' h
    simp only [addLibDeps, Option.some.injEq, Prod.mk.injEq] at h
    exact fun x hx => h.2 ▸ hx
  | cons lib rest ih =>
    intro g diags g' diags' h x hx
    simp only [addLibDeps] at h
    cases hd : get_dependencies lib (readelf lib) avail with
    | none => rw [hd] at h; exact absurd h (by simp)
    | some p =>
      rw [hd] at h
      exact ih _ _ _ _ h x (List.mem_append.mpr (Or.inl hx))

theorem addLibDeps_err_diag (readelf : String → ReadelfResult)
    (avail : List String) :
    ∀ (libs : List String) (g : Graph) (diags : List String)
      (g' : Graph) (diags' : List String) (lib : String),
      addLibDeps readelf avail g diags libs = some (g', diags') →
      lib ∈ libs → readelf lib = .err →
      ("Error reading dependencies for " ++ lib) ∈ diags' := by
  intro libs
  induction libs with
  | nil => intro g diags g' diags' lib h hmem; exact absurd hmem (List.not_mem_nil lib)
  | cons lib' rest ih =>
    intro g diags g' diags' lib h hmem herr
    simp only [addLibDeps] at h
    cases hd : get_dependencies lib' (readelf lib') avail with
    | none => rw [hd] at h; exact absurd h (by simp)
    | some p =>
      rw [hd] at h
      rcases List.mem_cons.mp hmem with hmem | hmem
      · subst hmem
        rw [herr] at hd
        simp only [get_dependencies, Option.some.injEq] at hd
        apply addLibDeps_diags_mono readelf avail _ _ _ _ _ h
        rw [← hd]
        exact List.mem_append.mpr (Or.inr (List.mem_singleton.mpr rfl))
      · exact ih _ _ _ _ lib h hmem herr

theorem addLibDeps_lookup_not_mem (readelf : String → ReadelfResult)
    (avail : List String) :
    ∀ (libs : List String) (g : Graph) (diags : List String)
      (g' : Graph) (diags' : List String) (lib : String),
      addLibDeps readelf avail g diags libs = some (g', diags') →
      lib ∉ libs → alookup g' lib = alookup g lib := by
  intro libs
  induction libs with
  | nil =>
    intro g diags g' diags' lib h _
    simp only [addLibDeps, Option.some.injEq, Prod.mk.injEq] at h
    rw [h.1]
  | cons lib' rest ih =>
    intro g diags g' diags' lib h hmem
    simp only [addLibDeps] at h
    cases hd : get_dependencies lib' (readelf lib') avail with
    | none => rw [hd] at h; exact absurd h (by simp)
    | some p =>
      rw [hd] at h
      have h1 : lib ≠ lib' := fun he => hmem (he ▸ List.mem_cons_self _ _)
      have h2 : lib ∉ rest := fun he => hmem (List.mem_cons_of_mem _ he)
      rw [ih _ _ _ _ lib h h2, alookup_dictExtend_ne g lib' p.1 lib h1]

theorem addLibDeps_lookup_mem (readelf : String → ReadelfResult)
    (avail : List String) :
    ∀ (libs : List String) (g : Graph) (diags : List String)
      (g' : Graph) (diags' : List String) (lib : String),
      addLibDeps readelf avail g diags libs = some (g', diags') →
      libs.Nodup → lib ∈ libs →
      ∃ deps ds, get_dependencies lib (readelf lib) avail = some (deps, ds) ∧
        alookup g' lib = some ((alookup g lib).getD [] ++ deps) := by
  intro libs
  induction libs with
  | nil => intro g diags g' diags' lib h _ hmem; exact absurd hmem (List.not_mem_nil lib)
  | cons lib' rest ih =>
    intro g diags g' diags' lib h hnd hmem
    simp only [addLibDeps] at h
    cases hd : get_dependencies lib' (readelf lib') avail with
    | none => rw [hd] at h; exact absurd h (by simp)
    | some p =>
      rw [hd] at h
      rcases List.mem_cons.mp hmem with hmem | hmem
      · subst hmem
        refine ⟨p.1, p.2, by rw [hd], ?_⟩
        have hnotin : lib ∉ rest := (List.nodup_cons.mp hnd).1
        rw [addLibDeps_lookup_not_mem readelf avail _ _ _ _ _ lib h hnotin,
          alookup_dictExtend_self]
      · rcases ih _ _ _ _ lib h (List.nodup_cons.mp hnd).2 hmem with
          ⟨deps, ds, hget, hlook⟩
        refine ⟨deps, ds, hget, ?_⟩
        have h1 : lib ≠ lib' := fun he =>
          (List.nodup_cons.mp hnd).1 (he ▸ hmem)
        rw [hlook, alookup_dictExtend_ne g lib' p.1 lib h1]

/-! ## Lemmas about the in-degree computation -/

theorem insertZero_fresh (d : DegMap) (k : String) (hk : k ∉ keysOf d) :
    zeroDegrees.insertZero d k = d ++ [(k, 0)] := by
  induction d with
  | nil => rfl
  | cons p rest ih =>
    obtain ⟨k', v⟩ := p
    rw [keysOf_cons] at hk
    have h1 : k' ≠ k := fun h => hk (h ▸ List.mem_cons_self _ _)
    have h2 : k ∉ keysOf rest := fun h => hk (List.mem_cons_of_mem _ h)
    simp [zeroDegrees.insertZero, h1, ih h2]

theorem zeroDegrees_foldl (g : Graph) :
    ∀ (d : DegMap), (keysOf g).Nodup → (∀ k ∈ keysOf g, k ∉ keysOf d) →
      g.foldl (fun d p => zeroDegrees.insertZero d p.1) d =
        d ++ g.map (fun p => (p.1, (0 : Int))) := by
  induction g with
  | nil => intro d _ _; simp
  | cons p rest ih =>
    intro d hnd hfresh
    rw [keysOf_cons] at hnd hfresh
    have hp : p.1 ∉ keysOf d := hfresh p.1 (List.mem_cons_self _ _)
    have hnd' : (keysOf rest).Nodup := (List.nodup_cons.mp hnd).2
    have hfresh' : ∀ k ∈ keysOf rest, k ∉ keysOf (zeroDegrees.insertZero d p.1) := by
      intro k hk
    -- the keys of the extended accumulator are `keysOf d ++ [p.1]`
      rw [insertZero_fresh d p.1 hp, keysOf_append]
      intro hmem
      rcases List.mem_append.mp hmem with h | h
      · exact hfresh k (List.mem_cons_of_mem _ hk) h
      · have h' : k = p.1 := by simpa [keysOf] using h
        exact (List.nodup_cons.mp hnd).1 (h' ▸ hk)
    rw [List.foldl_cons, ih _ hnd' hfresh', insertZero_fresh d p.1 hp]
    simp

theorem zeroDegrees_eq (g : Graph) (h : (keysOf g).Nodup) :
    zeroDegrees g = g.map (fun p => (p.1, (0 : Int))) := by
  have := zeroDegrees_foldl g [] h (by intro k _; simp [keysOf_nil])
  simpa [zeroDegrees] using this

theorem alookup_map_zero (g : Graph) (k : String) (hk : k ∈ keysOf g) :
    alookup (g.map (fun p => (p.1, (0 : Int)))) k = some 0 := by
  induction g with
  | nil => simp [keysOf_nil] at hk
  | cons p rest ih =>
    rw [keysOf_cons] at hk
    by_cases h : p.1 = k
    · simp [alookup, h]
    · rcases List.mem_cons.mp hk with h' | h'
      · exact (h h'.symm).elim
      · simp [alookup, h, ih h']

theorem aupdate_eq_none_iff (f : Int → Int) (d : DegMap) (k : String) :
    aupdate f d k = none ↔ k ∉ keysOf d := by
  induction d with
  | nil => simp [aupdate, keysOf_nil]
  | cons p rest ih =>
    obtain ⟨k', v⟩ := p
    rw [keysOf_cons]
    by_cases h : k' = k
    · simp [aupdate, h]
    · simp only [aupdate, if_neg h, List.mem_cons]
      cases hr : aupdate f rest k with
      | none =>
        simp only [Option.map_none', true_iff]
        rw [hr] at ih
        push_neg
        exact ⟨fun he => h he.symm, (ih.mp rfl)⟩
      | some r =>
        simp only [Option.map_some']
        constructor
        · intro hc; exact absurd hc (by simp)
        · intro hc
          push_neg at hc
          rw [ih.mpr hc.2] at hr
          exact absurd hr (by simp)

theorem aupdate_keysOf (f : Int → Int) (d : DegMap) (k : String) (d' : DegMap)
    (h : aupdate f d k = some d') : keysOf d' = keysOf d := by
  induction d generalizing d' with
  | nil => simp [aupdate] at h
  | cons p rest ih =>
    obtain ⟨k', v⟩ := p
    by_cases hk : k' = k
    · rw [aupdate, if_pos hk, Option.some.injEq] at h
      rw [← h, keysOf_cons, keysOf_cons, hk]
    · rw [aupdate, if_neg hk] at h
      cases hr : aupdate f rest k with
      | none => rw [hr] at h; exact absurd h (by simp)
      | some r =>
        rw [hr, Option.map_some', Option.some.injEq] at h
        rw [← h, keysOf_cons, keysOf_cons, ih r hr]

theorem aupdate_lookup_self (f : Int → Int) (d : DegMap) (k : String) (d' : DegMap)
    (h : aupdate f d k = some d') : alookup d' k = (alookup d k).map f := by
  induction d generalizing d' with
  | nil => simp [aupdate] at h
  | cons p rest ih =>
    obtain ⟨k', v⟩ := p
    by_cases hk : k' = k
    · rw [aupdate, if_pos hk, Option.some.injEq] at h
      rw [← h]
      simp [alookup, hk]
    · rw [aupdate, if_neg hk] at h
      cases hr : aupdate f rest k with
      | none => rw [hr] at h; exact absurd h (by simp)
      | some r =>
        rw [hr, Option.map_some', Option.some.injEq] at h
        rw [← h]
        simp [alookup, hk, ih r hr]

theorem aupdate_lookup_ne (f : Int → Int) (d : DegMap) (k : String) (d' : DegMap)
    (x : String) (hx : x ≠ k) (h : aupdate f d k = some d') :
    alookup d' x = alookup d x := by
  induction d generalizing d' with
  | nil => simp [aupdate] at h
  | cons p rest ih =>
    obtain ⟨k', v⟩ := p
    by_cases hk : k' = k
    · rw [aupdate, if_pos hk, Option.some.injEq] at h
      rw [← h]
      have : k ≠ x := fun he => hx he.symm
      simp [alookup, hk, this]
    · rw [aupdate, if_neg hk] at h
      cases hr : aupdate f rest k with
      | none => rw [hr] at h; exact absurd h (by simp)
      | some r =>
        rw [hr, Option.map_some', Option.some.injEq] at h
        rw [← h]
        by_cases hx' : k' = x <;> simp [alookup, hx', ih r hr]

theorem bumpAll_keysOf (deps : List String) :
    ∀ (d d' : DegMap), bumpAll d deps = some d' → keysOf d' = keysOf d := by
  induction deps with
  | nil =>
    intro d d' h
    rw [bumpAll, Option.some.injEq] at h
    rw [h]
  | cons dep rest ih =>
    intro d d' h
    rw [bumpAll] at h
    cases hu : aupdate (· + 1) d dep with
    | none => rw [hu] at h; exact absurd h (by simp)
    | some d1 =>
      rw [hu] at h
      rw [ih d1 d' h, aupdate_keysOf _ _ _ _ hu]

theorem bumpAll_some_of_keys (deps : List String) :
    ∀ (d : DegMap), (∀ x ∈ deps, x ∈ keysOf d) →
      ∃ d', bumpAll d deps = some d' := by
  induction deps with
  | nil => intro d _; exact ⟨d, rfl⟩
  | cons dep rest ih =>
    intro d hsub
    have hd : dep ∈ keysOf d := hsub dep (List.mem_cons_self _ _)
    cases hu : aupdate (· + 1) d dep with
    | none => exact absurd ((aupdate_eq_none_iff _ d dep).mp hu) (by simp [hd])
    | some d1 =>
      have hsub' : ∀ x ∈ rest, x ∈ keysOf d1 := by
        intro x hx
        rw [aupdate_keysOf _ _ _ _ hu]
        exact hsub x (List.mem_cons_of_mem _ hx)
      rcases ih d1 hsub' with ⟨d', h⟩
      exact ⟨d', by rw [bumpAll, hu]; exact h⟩

theorem bumpAll_some_keys (deps : List String) :
    ∀ (d d' : DegMap), bumpAll d deps = some d' → ∀ x ∈ deps, x ∈ keysOf d := by
  induction deps with
  | nil => intro d d' _ x hx; exact absurd hx (List.not_mem_nil x)
  | cons dep rest ih =>
    intro d d' h x hx
    rw [bumpAll] at h
    cases hu : aupdate (· + 1) d dep with
    | none => rw [hu] at h; exact absurd h (by simp)
    | some d1 =>
      rw [hu] at h
      rcases List.mem_cons.mp hx with hx | hx
      · subst hx
        by_contra hmem
        rw [(aupdate_eq_none_iff _ d x).mpr hmem] at hu
        exact absurd hu (by simp)
      · have := ih d1 d' h x hx
        rw [aupdate_keysOf _ _ _ _ hu] at this
        exact this

theorem bumpAll_lookup (deps : List String) :
    ∀ (d d' : DegMap), bumpAll d deps = some d' →
      ∀ (k : String) (v : Int), alookup d k = some v →
        alookup d' k = some (v + (deps.count k : Nat)) := by
  induction deps with
  | nil =>
    intro d d' h k v hv
    rw [bumpAll, Option.some.injEq] at h
    rw [← h, hv]
    simp
  | cons dep rest ih =>
    intro d d' h k v hv
    rw [bumpAll] at h
    cases hu : aupdate (· + 1) d dep with
    | none => rw [hu] at h; exact absurd h (by simp)
    | some d1 =>
      rw [hu] at h
      by_cases hk : dep = k
      · subst hk
        have h1 : alookup d1 dep = some (v + 1) := by
          rw [aupdate_lookup_self _ _ _ _ hu, hv, Option.map_some']
        have := ih d1 d' h dep (v + 1) h1
        rw [this, List.count_cons_self]
        congr 1
        push_cast
        ring
      · have h1 : alookup d1 k = alookup d k :=
          aupdate_lookup_ne _ _ _ _ k (fun he => hk he.symm) hu
        have := ih d1 d' h k v (h1 ▸ hv)
        rw [this, List.count_cons_of_ne (fun he => hk he.symm)]

theorem addAllEdges_keysOf (ls : List (List String)) :
    ∀ (d d' : DegMap), addAllEdges d ls = some d' → keysOf d' = keysOf d := by
  induction ls with
  | nil =>
    intro d d' h
    rw [addAllEdges, Option.some.injEq] at h
    rw [h]
  | cons deps rest ih =>
    intro d d' h
    rw [addAllEdges] at h
    cases hb : bumpAll d deps with
    | none => rw [hb] at h; exact absurd h (by simp)
    | some d1 =>
      rw [hb] at h
      rw [ih d1 d' h, bumpAll_keysOf _ _ _ hb]

theorem addAllEdges_some_of_keys (ls : List (List String)) :
    ∀ (d : DegMap), (∀ l ∈ ls, ∀ x ∈ l, x ∈ keysOf d) →
      ∃ d', addAllEdges d ls = some d' := by
  induction ls with
  | nil => intro d _; exact ⟨d, rfl⟩
  | cons deps rest ih =>
    intro d hsub
    rcases bumpAll_some_of_keys deps d (hsub deps (List.mem_cons_self _ _)) with ⟨d1, h1⟩
    have hsub' : ∀ l ∈ rest, ∀ x ∈ l, x ∈ keysOf d1 := by
      intro l hl x hx
      rw [bumpAll_keysOf _ _ _ h1]
      exact hsub l (List.mem_cons_of_mem _ hl) x hx
    rcases ih d1 hsub' with ⟨d', h⟩
    exact ⟨d', by rw [addAllEdges, h1]; exact h⟩

theorem addAllEdges_some_keys (ls : List (List String)) :
    ∀ (d d' : DegMap), addAllEdges d ls = some d' →
      ∀ l ∈ ls, ∀ x ∈ l, x ∈ keysOf d := by
  induction ls with
  | nil => intro d d' _ l hl; exact absurd hl (List.not_mem_nil l)
  | cons deps rest ih =>
    intro d d' h l hl x hx
    rw [addAllEdges] at h
    cases hb : bumpAll d deps with
    | none => rw [hb] at h; exact absurd h (by simp)
    | some d1 =>
      rw [hb] at h
      rcases List.mem_cons.mp hl with hl | hl
      · exact bumpAll_some_keys deps d d1 hb x (hl ▸ hx)
      · have := ih d1 d' h l hl x hx
        rw [bumpAll_keysOf _ _ _ hb] at this
        exact this

theorem addAllEdges_lookup (ls : List (List String)) :
    ∀ (d d' : DegMap), addAllEdges d ls = some d' →
      ∀ (k : String) (v : Int), alookup d k = some v →
        alookup d' k = some (v + ((ls.map (fun l => l.count k)).sum : Nat)) := by
  induction ls with
  | nil =>
    intro d d' h k v hv
    rw [addAllEdges, Option.some.injEq] at h
    rw [← h, hv]
    simp
  | cons deps rest ih =>
    intro d d' h k v hv
    rw [addAllEdges] at h
    cases hb : bumpAll d deps with
    | none => rw [hb] at h; exact absurd h (by simp)
    | some d1 =>
      rw [hb] at h
      have h1 := bumpAll_lookup deps d d1 hb k v hv
      have := ih d1 d' h k _ h1
      rw [this, List.map_cons, List.sum_cons]
      congr 1
      push_cast
      ring

theorem computeInDegree_keysOf (g : Graph) (deg : DegMap)
    (hnd : (keysOf g).Nodup) (h : computeInDegree g = some deg) :
    keysOf deg = keysOf g := by
  rw [computeInDegree] at h
  rw [addAllEdges_keysOf _ _ _ h, zeroDegrees_eq g hnd]
  simp [keysOf]

theorem computeInDegree_lookup (g : Graph) (deg : DegMap)
    (hnd : (keysOf g).Nodup) (h : computeInDegree g = some deg) :
    ∀ k ∈ keysOf g, alookup deg k = some ((totalInto g k : Nat) : Int) := by
  intro k hk
  rw [computeInDegree, zeroDegrees_eq g hnd] at h
  have h0 := alookup_map_zero g k hk
  have := addAllEdges_lookup _ _ _ h k 0 h0
  have hsum : ((g.map Prod.snd).map (fun l => l.count k)).sum = totalInto g k := by
    rw [totalInto, List.map_map]; rfl
  rw [this, zero_add, hsum]

theorem computeInDegree_some_iff (g : Graph) (hnd : (keysOf g).Nodup) :
    (∃ deg, computeInDegree g = some deg) ↔ ClosedG g := by
  have hkeys : keysOf (zeroDegrees g) = keysOf g := by
    rw [zeroDegrees_eq g hnd]; simp [keysOf]
  constructor
  · rintro ⟨deg, h⟩
    intro p hp b hb
    rw [computeInDegree] at h
    have := addAllEdges_some_keys (g.map Prod.snd) (zeroDegrees g) deg h
      p.2 (List.mem_map.mpr ⟨p, hp, rfl⟩) b hb
    rw [hkeys] at this
    exact this
  · intro hclosed
    rw [computeInDegree]
    apply addAllEdges_some_of_keys
    intro l hl x hx
    rw [hkeys]
    rcases List.mem_map.mp hl with ⟨p, hp, hpl⟩
    exact hclosed p hp x (hpl ▸ hx)

/-! ## Edge-counting lemmas -/

theorem totalInto_nil (k : String) : totalInto [] k = 0 := rfl

theorem totalInto_cons (q : String × List String) (rest : Graph) (k : String) :
    totalInto (q :: rest) k = q.2.count k + totalInto rest k := by
  simp [totalInto]

theorem intoFrom_nil_graph (srcs : List String) (k : String) :
    intoFrom [] srcs k = 0 := rfl

theorem intoFrom_cons (q : String × List String) (rest : Graph)
    (srcs : List String) (k : String) :
    intoFrom (q :: rest) srcs k =
      (if q.1 ∈ srcs then q.2.count k else 0) + intoFrom rest srcs k := by
  by_cases h : q.1 ∈ srcs <;>
    simp [intoFrom, List.filter_cons, h]

theorem intoFrom_nil_srcs (g : Graph) (k : String) : intoFrom g [] k = 0 := by
  induction g with
  | nil => rfl
  | cons q rest ih => rw [intoFrom_cons, ih]; simp

theorem intoFrom_le_total (g : Graph) (srcs : List String) (k : String) :
    intoFrom g srcs k ≤ totalInto g k := by
  induction g with
  | nil => exact Nat.le_refl 0
  | cons q rest ih =>
    rw [intoFrom_cons, totalInto_cons]
    by_cases h : q.1 ∈ srcs
    · rw [if_pos h]; exact Nat.add_le_add_left ih _
    · rw [if_neg h]; exact Nat.le_trans (Nat.zero_add _ ▸ Nat.add_le_add_left ih 0)
        (Nat.add_le_add_right (Nat.zero_le _) _)

theorem outCount_eq_zero (g : Graph) (a k : String) (ha : a ∉ keysOf g) :
    outCount g a k = 0 := by
  induction g with
  | nil => rfl
  | cons q rest ih =>
    rw [keysOf_cons] at ha
    have h1 : q.1 ≠ a := fun h => ha (h ▸ List.mem_cons_self _ _)
    have h2 : a ∉ keysOf rest := fun h => ha (List.mem_cons_of_mem _ h)
    simp [outCount, List.filter_cons, h1]
    have := ih h2
    simpa [outCount] using this

theorem outCount_eq_lookup (g : Graph) (a k : String)
    (hnd : (keysOf g).Nodup) :
    outCount g a k = ((alookup g a).getD []).count k := by
  induction g with
  | nil => simp [outCount, alookup]
  | cons q rest ih =>
    rw [keysOf_cons] at hnd
    by_cases h : q.1 = a
    · have hrest : a ∉ keysOf rest := h ▸ (List.nodup_cons.mp hnd).1
      simp only [outCount, List.filter_cons, decide_eq_true_eq, if_pos h,
        List.map_cons, List.sum_cons]
      have h0 : outCount rest a k = 0 := outCount_eq_zero rest a k hrest
      rw [outCount] at h0
      rw [h0, Nat.add_zero, alookup]
      simp [h]
    · simp only [outCount, List.filter_cons, decide_eq_true_eq, if_neg h]
      rw [← outCount, ih (List.nodup_cons.mp hnd).2, alookup, if_neg h]

theorem intoFrom_snoc (g : Graph) (srcs : List String) (a k : String)
    (ha : a ∉ srcs) :
    intoFrom g (srcs ++ [a]) k = intoFrom g srcs k + outCount g a k := by
  induction g with
  | nil => rfl
  | cons q rest ih =>
    rw [intoFrom_cons, intoFrom_cons]
    simp only [outCount, List.filter_cons, decide_eq_true_eq]
    by_cases h : q.1 = a
    · rw [if_pos h]
      have h1 : q.1 ∈ srcs ++ [a] := List.mem_append.mpr (Or.inr (by simp [h]))
      have h2 : q.1 ∉ srcs := h ▸ ha
      rw [if_pos h1, if_neg h2]
      simp only [List.map_cons, List.sum_cons]
      rw [← outCount, ih]
      omega
    · rw [if_neg h]
      have h1 : q.1 ∈ srcs ++ [a] ↔ q.1 ∈ srcs := by
        simp only [List.mem_append, List.mem_singleton]
        exact or_iff_left h
      rw [← outCount, ih]
      by_cases h2 : q.1 ∈ srcs
      · rw [if_pos (h1.mpr h2), if_pos h2]; omega
      · rw [if_neg (fun hc => h2 (h1.mp hc)), if_neg h2]; omega

theorem totalInto_pos_of_mem (g : Graph) (p : String × List String)
    (k : String) (hp : p ∈ g) (hk : k ∈ p.2) : 0 < totalInto g k := by
  induction g with
  | nil => exact absurd hp (List.not_mem_nil p)
  | cons q rest ih =>
    rw [totalInto_cons]
    rcases List.mem_cons.mp hp with h | h
    · subst h
      have := List.count_pos_iff.mpr hk
      omega
    · have := ih h
      omega

theorem full_of_intoFrom_eq (g : Graph) (srcs : List String) (k : String)
    (h : intoFrom g srcs k = totalInto g k) :
    ∀ p ∈ g, k ∈ p.2 → p.1 ∈ srcs := by
  induction g with
  | nil => intro p hp; exact absurd hp (List.not_mem_nil p)
  | cons q rest ih =>
    rw [intoFrom_cons, totalInto_cons] at h
    have hle := intoFrom_le_total rest srcs k
    intro p hp hk
    rcases List.mem_cons.mp hp with he | he
    · subst he
      by_contra hmem
      rw [if_neg hmem] at h
      have := List.count_pos_iff.mpr hk
      omega
    · refine ih ?_ p he hk
      by_cases hq : q.1 ∈ srcs
      · rw [if_pos hq] at h; omega
      · rw [if_neg hq] at h
        have := List.count_pos_iff (a := k) (l := q.2)
        by_cases hk' : k ∈ q.2
        · have := this.mpr hk'; omega
        · have hc : q.2.count k = 0 := by
            rw [List.count_eq_zero]; exact hk'
          omega

theorem intoFrom_eq_of_full (g : Graph) (srcs : List String) (k : String)
    (h : ∀ p ∈ g, k ∈ p.2 → p.1 ∈ srcs) :
    intoFrom g srcs k = totalInto g k := by
  induction g with
  | nil => rfl
  | cons q rest ih =>
    rw [intoFrom_cons, totalInto_cons]
    have hrest := ih (fun p hp hk => h p (List.mem_cons_of_mem _ hp) hk)
    by_cases hq : k ∈ q.2
    · rw [if_pos (h q (List.mem_cons_self _ _) hq), hrest]
    · have hc : q.2.count k = 0 := by rw [List.count_eq_zero]; exact hq
      rw [hc, hrest]
      simp

theorem alookup_mem {α : Type} (g : List (String × α)) (k : String) (v : α)
    (h : alookup g k = some v) : (k, v) ∈ g := by
  induction g with
  | nil => simp [alookup] at h
  | cons p rest ih =>
    obtain ⟨k', v'⟩ := p
    by_cases hk : k' = k
    · rw [alookup, if_pos hk, Option.some.injEq] at h
      exact List.mem_cons.mpr (Or.inl (by rw [hk, h]))
    · rw [alookup, if_neg hk] at h
      exact List.mem_cons.mpr (Or.inr (ih h))

theorem edgeOcc_mem_keys (g : Graph) (a b : String) (h : edgeOcc g a b) :
    a ∈ keysOf g := by
  rcases h with ⟨p, hp, hpa, -⟩
  rw [← hpa]
  exact List.mem_map.mpr ⟨p, hp, rfl⟩

theorem edgeOcc_total_pos (g : Graph) (a b : String) (h : edgeOcc g a b) :
    0 < totalInto g b := by
  rcases h with ⟨p, hp, -, hb⟩
  exact totalInto_pos_of_mem g p b hp hb

/-! ## The inner edge-processing loop -/

theorem stepEdges_spec :
    ∀ (edges : List String) (deg : DegMap) (queue : List String),
      (∀ x ∈ edges, x ∈ keysOf deg) →
      (∀ (k : String) (v : Int), alookup deg k = some v →
        ((edges.count k : Nat) : Int) ≤ v) →
      ∃ (deg' : DegMap) (qa : List String),
        stepEdges edges deg queue = some (deg', queue ++ qa) ∧
        keysOf deg' = keysOf deg ∧
        (∀ (k : String) (v : Int), alookup deg k = some v →
          alookup deg' k = some (v - ((edges.count k : Nat) : Int))) ∧
        (∀ k : String, k ∈ qa ↔
          (alookup deg' k = some 0 ∧ ¬ alookup deg k = some 0)) ∧
        qa.Nodup := by
  intro edges
  induction edges with
  | nil =>
    intro deg queue _ _
    refine ⟨deg, [], ?_, rfl, ?_, ?_, List.nodup_nil⟩
    · rw [stepEdges]; simp
    · intro k v hv; rw [hv]; simp
    · intro k; simp
  | cons dep rest ih =>
    intro deg queue hkeys hge
    have hdep : dep ∈ keysOf deg := hkeys dep (List.mem_cons_self _ _)
    have hsome : (alookup deg dep).isSome = true :=
      (alookup_isSome_iff deg dep).mpr hdep
    obtain ⟨v₀, hv₀⟩ := Option.isSome_iff_exists.mp hsome
    cases hu : aupdate (· - 1) deg dep with
    | none => exact absurd ((aupdate_eq_none_iff _ deg dep).mp hu) (by simp [hdep])
    | some deg1 =>
      have hd1self : alookup deg1 dep = some (v₀ - 1) := by
        rw [aupdate_lookup_self _ _ _ _ hu, hv₀, Option.map_some']
      have hd1ne : ∀ x, x ≠ dep → alookup deg1 x = alookup deg x :=
        fun x hx => aupdate_lookup_ne _ _ _ _ x hx hu
      have hd1keys : keysOf deg1 = keysOf deg := aupdate_keysOf _ _ _ _ hu
      have hcount : (1 : Int) + ((rest.count dep : Nat) : Int) ≤ v₀ := by
        have := hge dep v₀ hv₀
        rw [List.count_cons_self] at this
        push_cast at this
        omega
      have hkeys' : ∀ x ∈ rest, x ∈ keysOf deg1 := by
        intro x hx; rw [hd1keys]; exact hkeys x (List.mem_cons_of_mem _ hx)
      have hge' : ∀ (k : String) (v : Int), alookup deg1 k = some v →
          ((rest.count k : Nat) : Int) ≤ v := by
        intro k v hv
        by_cases hk : k = dep
        · subst hk
          rw [hd1self, Option.some.injEq] at hv
          omega
        · rw [hd1ne k hk] at hv
          have := hge k v hv
          rw [List.count_cons_of_ne hk] at this
          exact this
      have heq : stepEdges (dep :: rest) deg queue =
          stepEdges rest deg1
            (if alookup deg1 dep = some 0 then queue ++ [dep] else queue) := by
        rw [stepEdges, hu]
      by_cases hz : alookup deg1 dep = some 0
      · -- `dep` reaches in-degree zero and is appended to the queue
        have hv1 : v₀ = 1 := by
          rw [hd1self, Option.some.injEq] at hz
          omega
        obtain ⟨deg', qa', hstep, hkeys2, hval, hchar, hnd⟩ :=
          ih deg1 (queue ++ [dep]) hkeys' hge'
        have hrest0 : ((rest.count dep : Nat) : Int) = 0 := by
          have := hge' dep (v₀ - 1) hd1self
          omega
        refine ⟨deg', dep :: qa', ?_, by rw [hkeys2, hd1keys], ?_, ?_, ?_⟩
        · rw [heq, if_pos hz, hstep]
          simp [List.append_assoc]
        · intro k v hv
          by_cases hk : k = dep
          · subst hk
            rw [hv₀, Option.some.injEq] at hv
            rw [hval k (v₀ - 1) hd1self]
            congr 1
            rw [List.count_cons_self]
            push_cast
            omega
          · rw [← hd1ne k hk] at hv
            rw [hval k v hv]
            congr 1
            rw [List.count_cons_of_ne hk]
        · intro k
          by_cases hk : k = dep
          · subst hk
            refine iff_of_true (List.mem_cons_self _ _) ⟨?_, ?_⟩
            · rw [hval k (v₀ - 1) hd1self]
              congr 1
              omega
            · rw [hv₀]
              intro hc
              rw [Option.some.injEq] at hc
              omega
          · rw [List.mem_cons, or_iff_right hk, hchar k, hd1ne k hk]
        · refine List.nodup_cons.mpr ⟨?_, hnd⟩
          intro hmem
          exact ((hchar dep).mp hmem).2 hz
      · -- `dep` does not reach zero here
        obtain ⟨deg', qa', hstep, hkeys2, hval, hchar, hnd⟩ :=
          ih deg1 queue hkeys' hge'
        refine ⟨deg', qa', ?_, by rw [hkeys2, hd1keys], ?_, ?_, hnd⟩
        · rw [heq, if_neg hz, hstep]
        · intro k v hv
          by_cases hk : k = dep
          · subst hk
            rw [hv₀, Option.some.injEq] at hv
            rw [hval k (v₀ - 1) hd1self]
            congr 1
            rw [List.count_cons_self]
            push_cast
            omega
          · rw [← hd1ne k hk] at hv
            rw [hval k v hv]
            congr 1
            rw [List.count_cons_of_ne hk]
        · intro k
          by_cases hk : k = dep
          · subst hk
            rw [hchar k]
            have hval' := hval k (v₀ - 1) hd1self
            constructor
            · rintro ⟨h0, -⟩
              refine ⟨h0, ?_⟩
              rw [hval'] at h0
              rw [Option.some.injEq] at h0
              rw [hv₀]
              intro hc
              rw [Option.some.injEq] at hc
              have hn : (0 : Int) ≤ ((rest.count k : Nat) : Int) := by positivity
              omega
            · rintro ⟨h0, -⟩
              exact ⟨h0, hz⟩
          · rw [hchar k, hd1ne k hk]

/-! ## The loop invariant: one step -/

theorem kahnInv_step (g₀ : Graph) (hnd : (keysOf g₀).Nodup)
    (hclosed : ClosedG g₀) (lib : String) (queue : List String)
    (deg : DegMap) (acc : List String)
    (hinv : KahnInv g₀ (lib :: queue) deg acc) :
    ∃ (edges : List String) (deg' : DegMap) (qa : List String),
      alookup g₀ lib = some edges ∧
      stepEdges edges deg queue = some (deg', queue ++ qa) ∧
      KahnInv g₀ (queue ++ qa) deg' (acc ++ [lib]) := by
  have hlibmem : lib ∈ acc ++ lib :: queue :=
    List.mem_append.mpr (Or.inr (List.mem_cons_self _ _))
  have hlib : lib ∈ keysOf g₀ := hinv.subset lib hlibmem
  obtain ⟨edges, hedges⟩ :=
    Option.isSome_iff_exists.mp ((alookup_isSome_iff g₀ lib).mpr hlib)
  have hlibacc : lib ∉ acc := by
    intro hc
    have := hinv.nodup
    rw [List.nodup_append] at this
    exact this.2.2 hc (List.mem_cons_self _ _)
  have hcnt : ∀ k, edges.count k = outCount g₀ lib k := by
    intro k
    rw [outCount_eq_lookup g₀ lib k hnd, hedges, Option.getD_some]
  have hsnoc : ∀ k, intoFrom g₀ (acc ++ [lib]) k =
      intoFrom g₀ acc k + edges.count k := by
    intro k
    rw [intoFrom_snoc g₀ acc lib k hlibacc, hcnt k]
  have hkeyspre : ∀ x ∈ edges, x ∈ keysOf deg := by
    intro x hx
    rw [hinv.keys_eq]
    exact hclosed (lib, edges) (alookup_mem g₀ lib edges hedges) x hx
  have hgepre : ∀ (k : String) (v : Int), alookup deg k = some v →
      ((edges.count k : Nat) : Int) ≤ v := by
    intro k v hv
    have hkmem : k ∈ keysOf g₀ := by
      rw [← hinv.keys_eq]
      exact (alookup_isSome_iff deg k).mp (by rw [hv]; rfl)
    have hval := hinv.deg_val k hkmem
    rw [hval, Option.some.injEq] at hv
    have hle : intoFrom g₀ (acc ++ [lib]) k ≤ totalInto g₀ k :=
      intoFrom_le_total g₀ (acc ++ [lib]) k
    rw [hsnoc k] at hle
    omega
  obtain ⟨deg', qa, hstep, hkeys2, hval, hchar, hqanodup⟩ :=
    stepEdges_spec edges deg queue hkeyspre hgepre
  -- derived facts about the new state
  have hdeg'_val : ∀ k ∈ keysOf g₀, alookup deg' k =
      some ((totalInto g₀ k : Int) - (intoFrom g₀ (acc ++ [lib]) k : Int)) := by
    intro k hk
    have h0 := hinv.deg_val k hk
    rw [hval k _ h0]
    congr 1
    rw [hsnoc k]
    push_cast
    ring
  have hdeg_zero_iff : ∀ k ∈ keysOf g₀,
      (alookup deg k = some 0 ↔ intoFrom g₀ acc k = totalInto g₀ k) := by
    intro k hk
    rw [hinv.deg_val k hk, Option.some.injEq]
    constructor
    · intro h
      have := intoFrom_le_total g₀ acc k
      omega
    · intro h; omega
  have hdeg'_zero_iff : ∀ k ∈ keysOf g₀,
      (alookup deg' k = some 0 ↔
        intoFrom g₀ (acc ++ [lib]) k = totalInto g₀ k) := by
    intro k hk
    rw [hdeg'_val k hk, Option.some.injEq]
    constructor
    · intro h
      have := intoFrom_le_total g₀ (acc ++ [lib]) k
      omega
    · intro h; omega
  have hqa_keys : ∀ k ∈ qa, k ∈ keysOf g₀ := by
    intro k hk
    have := ((hchar k).mp hk).1
    rw [← hinv.keys_eq, ← hkeys2]
    exact (alookup_isSome_iff deg' k).mp (by rw [this]; rfl)
  have hqa_not_old : ∀ k ∈ qa, k ∉ acc ++ lib :: queue := by
    intro k hk hcon
    have hkg : k ∈ keysOf g₀ := hqa_keys k hk
    have hzero := (hinv.zero_iff k hkg).mp hcon
    exact ((hchar k).mp hk).2 ((hdeg_zero_iff k hkg).mpr hzero)
  have hold_zero : ∀ k ∈ acc ++ lib :: queue, alookup deg' k = some 0 := by
    intro k hkold
    have hkg : k ∈ keysOf g₀ := hinv.subset k hkold
    have h0 : alookup deg k = some 0 :=
      (hdeg_zero_iff k hkg).mpr ((hinv.zero_iff k hkg).mp hkold)
    have hge0 := hgepre k 0 h0
    have h1 := hval k 0 h0
    rw [h1]
    congr 1
    omega
  refine ⟨edges, deg', qa, hedges, hstep, ?_, ?_, ?_, ?_, ?_, ?_, ?_⟩
  · exact hkeys2.trans hinv.keys_eq
  · exact hdeg'_val
  · -- nodup of the new `acc ++ queue`
    have hold : (acc ++ lib :: queue).Nodup := hinv.nodup
    rw [List.append_cons] at hold
    have heq : (acc ++ [lib]) ++ (queue ++ qa) = ((acc ++ [lib]) ++ queue) ++ qa := by
      simp [List.append_assoc]
    rw [heq, List.nodup_append]
    refine ⟨hold, hqanodup, ?_⟩
    intro x hx hxqa
    apply hqa_not_old x hxqa
    rw [List.append_cons]
    exact hx
  · intro x hx
    rcases List.mem_append.mp hx with hx | hx
    · apply hinv.subset
      rw [List.append_cons]
      exact List.mem_append.mpr (Or.inl hx)
    · rcases List.mem_append.mp hx with hx | hx
      · apply hinv.subset
        exact List.mem_append.mpr (Or.inr (List.mem_cons_of_mem _ hx))
      · exact hqa_keys x hx
  · -- zero_iff for the new state
    intro k hk
    rw [← hdeg'_zero_iff k hk]
    constructor
    · intro hmem
      rcases List.mem_append.mp hmem with hx | hx
      · exact hold_zero k (by rw [List.append_cons]; exact List.mem_append.mpr (Or.inl hx))
      · rcases List.mem_append.mp hx with hx | hx
        · exact hold_zero k
            (List.mem_append.mpr (Or.inr (List.mem_cons_of_mem _ hx)))
        · exact ((hchar k).mp hx).1
    · intro hz
      by_cases hold' : k ∈ acc ++ lib :: queue
      · rcases List.mem_append.mp hold' with hx | hx
        · exact List.mem_append.mpr (Or.inl (List.mem_append.mpr (Or.inl hx)))
        · rcases List.mem_cons.mp hx with hx | hx
          · exact List.mem_append.mpr
              (Or.inl (List.mem_append.mpr (Or.inr (by simp [hx]))))
          · exact List.mem_append.mpr (Or.inr (List.mem_append.mpr (Or.inl hx)))
      · have hnz : ¬ alookup deg k = some 0 := by
          intro hc
          exact hold' ((hinv.zero_iff k hk).mpr ((hdeg_zero_iff k hk).mp hc))
        exact List.mem_append.mpr (Or.inr (List.mem_append.mpr
          (Or.inr ((hchar k).mpr ⟨hz, hnz⟩))))
  · -- edge_queue
    intro a b hab hb
    rcases List.mem_append.mp hb with hb | hb
    · exact List.mem_append.mpr
        (Or.inl (hinv.edge_queue a b hab (List.mem_cons_of_mem _ hb)))
    · have hbg : b ∈ keysOf g₀ := hqa_keys b hb
      have hz : alookup deg' b = some 0 := ((hchar b).mp hb).1
      have hfull := full_of_intoFrom_eq g₀ (acc ++ [lib]) b
        ((hdeg'_zero_iff b hbg).mp hz)
      rcases hab with ⟨p, hp, hpa, hpb⟩
      exact hpa ▸ hfull p hp hpb
  · -- edge_acc
    intro a b hab hb
    rcases List.mem_append.mp hb with hb | hb
    · exact (hinv.edge_acc a b hab hb).trans (List.sublist_append_left _ _)
    · rw [List.mem_singleton] at hb
      subst hb
      have ha : a ∈ acc := hinv.edge_queue a b hab (List.mem_cons_self _ _)
      obtain ⟨s, t, hst⟩ := List.append_of_mem ha
      have hrw : acc ++ [b] = s ++ (a :: (t ++ [b])) := by
        rw [hst]; simp
      rw [hrw]
      exact ((List.Sublist.cons₂ a
        (List.sublist_append_right t [b])).trans
          (List.sublist_append_right s _))

/-! ## The loop invariant: full run -/

theorem kahnLoop_run (g₀ : Graph) (hnd : (keysOf g₀).Nodup)
    (hclosed : ClosedG g₀) :
    ∀ (fuel : Nat) (queue : List String) (deg : DegMap) (acc : List String),
      KahnInv g₀ queue deg acc →
      (keysOf g₀).length ≤ fuel + acc.length →
      ∃ (acc' : List String) (deg' : DegMap),
        kahnLoop fuel queue deg g₀ acc = (some (acc', deg'), g₀) ∧
        KahnInv g₀ [] deg' acc' ∧ acc.IsPrefix acc' := by
  intro fuel
  induction fuel with
  | zero =>
    intro queue deg acc hinv hbound
    cases queue with
    | nil => exact ⟨acc, deg, rfl, hinv, List.prefix_refl acc⟩
    | cons lib q =>
      exfalso
      have hsub : List.Subperm (acc ++ lib :: q) (keysOf g₀) :=
        List.subperm_of_subset hinv.nodup hinv.subset
      have hlen := hsub.length_le
      rw [List.length_append, List.length_cons] at hlen
      omega
  | succ fuel ih =>
    intro queue deg acc hinv hbound
    cases queue with
    | nil => exact ⟨acc, deg, rfl, hinv, List.prefix_refl acc⟩
    | cons lib q =>
      obtain ⟨edges, deg', qa, hedges, hstep, hinv'⟩ :=
        kahnInv_step g₀ hnd hclosed lib q deg acc hinv
      have hbound' : (keysOf g₀).length ≤ fuel + (acc ++ [lib]).length := by
        rw [List.length_append, List.length_singleton]
        omega
      obtain ⟨acc', deg'', hloop, hfin, hpre⟩ :=
        ih (q ++ qa) deg' (acc ++ [lib]) hinv' hbound'
      refine ⟨acc', deg'', ?_, hfin, ?_⟩
      · have hd : dget g₀ lib = (edges, g₀) := by rw [dget, hedges]
        simp only [kahnLoop, hd, hstep]
        exact hloop
      · exact (List.prefix_append acc [lib]).trans hpre

/-! ## The initial and final loop states -/

theorem initialQueue_sublist (d : DegMap) :
    (initialQueue d).Sublist (keysOf d) := by
  have h1 : (d.filter (fun p => decide (p.2 = 0))).Sublist d :=
    List.filter_sublist d
  exact h1.map Prod.fst

theorem initialQueue_cons (k' : String) (v : Int) (rest : DegMap) :
    initialQueue ((k', v) :: rest) =
      if v = 0 then k' :: initialQueue rest else initialQueue rest := by
  by_cases h : v = 0 <;> simp [initialQueue, List.filter_cons, h]

theorem mem_initialQueue (d : DegMap) (hnd : (keysOf d).Nodup) (k : String) :
    k ∈ initialQueue d ↔ alookup d k = some 0 := by
  induction d with
  | nil => simp [initialQueue, alookup]
  | cons p rest ih =>
    obtain ⟨k', v⟩ := p
    rw [keysOf_cons] at hnd
    have hnd' := (List.nodup_cons.mp hnd).2
    have hhead : k' ∉ keysOf rest := (List.nodup_cons.mp hnd).1
    rw [initialQueue_cons]
    by_cases hv : v = 0
    · subst hv
      rw [if_pos rfl]
      by_cases hk : k' = k
      · subst hk
        rw [alookup, if_pos rfl]
        simp
      · rw [List.mem_cons, ih hnd', alookup, if_neg hk]
        exact or_iff_right (fun h => hk h.symm)
    · rw [if_neg hv]
      by_cases hk : k' = k
      · subst hk
        rw [alookup, if_pos rfl]
        constructor
        · intro h
          exact absurd ((initialQueue_sublist rest).subset h) hhead
        · intro h
          rw [Option.some.injEq] at h
          exact absurd h hv
      · rw [ih hnd', alookup, if_neg hk]

theorem kahnInv_init (g₀ : Graph) (hnd : (keysOf g₀).Nodup)
    (_hclosed : ClosedG g₀) (deg : DegMap)
    (hdeg : computeInDegree g₀ = some deg) :
    KahnInv g₀ (initialQueue deg) deg [] := by
  have hkeys : keysOf deg = keysOf g₀ := computeInDegree_keysOf g₀ deg hnd hdeg
  have hlook := computeInDegree_lookup g₀ deg hnd hdeg
  have hdnd : (keysOf deg).Nodup := by rw [hkeys]; exact hnd
  have hmemQ : ∀ k, k ∈ initialQueue deg ↔ alookup deg k = some 0 :=
    mem_initialQueue deg hdnd
  refine ⟨hkeys, ?_, ?_, ?_, ?_, ?_, ?_⟩
  · intro k hk
    rw [hlook k hk, intoFrom_nil_srcs]
    norm_num
  · rw [List.nil_append]
    exact (initialQueue_sublist deg).nodup hdnd
  · intro x hx
    rw [List.nil_append] at hx
    rw [← hkeys]
    exact (initialQueue_sublist deg).subset hx
  · intro k hk
    rw [List.nil_append, hmemQ k, hlook k hk, intoFrom_nil_srcs,
      Option.some.injEq]
    constructor
    · intro h
      omega
    · intro h
      omega
  · intro a b hab hb
    exfalso
    have hbk : b ∈ keysOf g₀ := by
      rw [← hkeys]
      exact (initialQueue_sublist deg).subset hb
    have h0 : alookup deg b = some 0 := (hmemQ b).mp hb
    rw [hlook b hbk, Option.some.injEq] at h0
    have := edgeOcc_total_pos g₀ a b hab
    omega
  · intro a b _ hb
    exact absurd hb (List.not_mem_nil b)

theorem kahnInv_final (g₀ : Graph) (deg : DegMap) (acc : List String)
    (hinv : KahnInv g₀ [] deg acc) :
    acc.Nodup ∧ (∀ x ∈ acc, x ∈ keysOf g₀) ∧
    (∀ k ∈ keysOf g₀, k ∉ acc → ∃ a, edgeOcc g₀ a k ∧ a ∉ acc) := by
  have hno : acc.Nodup := by
    have := hinv.nodup
    rwa [List.append_nil] at this
  have hsub : ∀ x ∈ acc, x ∈ keysOf g₀ := by
    intro x hx
    exact hinv.subset x (by rwa [List.append_nil])
  refine ⟨hno, hsub, ?_⟩
  intro k hk hnacc
  have hne : ¬ intoFrom g₀ acc k = totalInto g₀ k := by
    intro hc
    exact hnacc (by
      have := (hinv.zero_iff k hk).mpr hc
      rwa [List.append_nil] at this)
  by_contra hcon
  push_neg at hcon
  apply hne
  apply intoFrom_eq_of_full
  intro p hp hkp
  by_contra hpacc
  exact hpacc (hcon p.1 ⟨p, hp, rfl, hkp⟩)

/-! ## Building a cycle from the unemitted remainder -/

theorem cycle_of_descent (g₀ : Graph) (U : List String) (hne : U ≠ [])
    (hpred : ∀ k ∈ U, ∃ a ∈ U, edgeOcc g₀ a k) :
    ∃ x, Relation.TransGen (edgeOcc g₀) x x := by
  have hU : ∀ x : {x // x ∈ U}, ∃ a : {a // a ∈ U}, edgeOcc g₀ a.1 x.1 := by
    rintro ⟨x, hx⟩
    rcases hpred x hx with ⟨a, ha, hedge⟩
    exact ⟨⟨a, ha⟩, hedge⟩
  classical
  obtain ⟨x₀, hx₀⟩ : ∃ x, x ∈ U := by
    cases U with
    | nil => exact absurd rfl hne
    | cons a t => exact ⟨a, List.mem_cons_self _ _⟩
  set f : {x // x ∈ U} → {x // x ∈ U} := fun x => Classical.choose (hU x) with hfdef
  have hf : ∀ x, edgeOcc g₀ (f x).1 x.1 := fun x => Classical.choose_spec (hU x)
  set seq : Nat → {x // x ∈ U} := fun n => f^[n] ⟨x₀, hx₀⟩ with hseqdef
  have hseq_succ : ∀ n, seq (n + 1) = f (seq n) := by
    intro n
    rw [hseqdef]
    exact Function.iterate_succ_apply' f n _
  have hchain : ∀ i d, Relation.TransGen (edgeOcc g₀) (seq (i + d + 1)).1 (seq i).1 := by
    intro i d
    induction d with
    | zero =>
      have h1 : seq (i + 0 + 1) = f (seq i) := by
        rw [Nat.add_zero]
        exact hseq_succ i
      rw [h1]
      exact Relation.TransGen.single (hf (seq i))
    | succ d ihd =>
      have h1 : seq (i + (d + 1) + 1) = f (seq (i + d + 1)) := by
        have : i + (d + 1) + 1 = (i + d + 1) + 1 := by omega
        rw [this]
        exact hseq_succ (i + d + 1)
      rw [h1]
      exact Relation.TransGen.head (hf (seq (i + d + 1))) ihd
  have hmaps : ∀ n ∈ Finset.range (U.toFinset.card + 1),
      (seq n).1 ∈ U.toFinset := by
    intro n _
    exact List.mem_toFinset.mpr (seq n).2
  obtain ⟨i, hi, j, hj, hij, heqij⟩ :=
    Finset.exists_ne_map_eq_of_card_lt_of_maps_to
      (by rw [Finset.card_range]; omega) hmaps
  rcases Nat.lt_or_ge i j with hlt | hge
  · refine ⟨(seq j).1, ?_⟩
    have hj' : j = i + (j - i - 1) + 1 := by omega
    have := hchain i (j - i - 1)
    rw [← hj'] at this
    rw [heqij] at this
    exact this
  · have hlt' : j < i := Nat.lt_of_le_of_ne hge (fun he => hij he.symm)
    refine ⟨(seq i).1, ?_⟩
    have hi' : i = j + (i - j - 1) + 1 := by omega
    have := hchain j (i - j - 1)
    rw [← hi'] at this
    rw [← heqij] at this
    exact this

/-! ## The sorter leaves the graph unchanged -/

theorem stepEdges_keys (edges : List String) :
    ∀ (deg : DegMap) (queue : List String) (deg' : DegMap)
      (queue' : List String),
      stepEdges edges deg queue = some (deg', queue') →
      keysOf deg' = keysOf deg ∧ (∀ x ∈ queue', x ∈ queue ∨ x ∈ keysOf deg) := by
  induction edges with
  | nil =>
    intro deg queue deg' queue' h
    rw [stepEdges, Option.some.injEq, Prod.mk.injEq] at h
    exact ⟨by rw [h.1], fun x hx => Or.inl (h.2 ▸ hx)⟩
  | cons dep rest ih =>
    intro deg queue deg' queue' h
    rw [stepEdges] at h
    cases hu : aupdate (· - 1) deg dep with
    | none => rw [hu] at h; exact absurd h (by simp)
    | some deg1 =>
      simp only [hu] at h
      have hdep : dep ∈ keysOf deg := by
        by_contra hmem
        rw [(aupdate_eq_none_iff _ deg dep).mpr hmem] at hu
        exact absurd hu (by simp)
      have hkeq := aupdate_keysOf _ _ _ _ hu
      by_cases hz : alookup deg1 dep = some 0
      · rw [if_pos hz] at h
        obtain ⟨hk, hq⟩ := ih deg1 (queue ++ [dep]) deg' queue' h
        refine ⟨by rw [hk, hkeq], ?_⟩
        intro x hx
        rcases hq x hx with hx' | hx'
        · rcases List.mem_append.mp hx' with hx'' | hx''
          · exact Or.inl hx''
          · rw [List.mem_singleton] at hx''
            exact Or.inr (hx'' ▸ hdep)
        · rw [hkeq] at hx'
          exact Or.inr hx'
      · rw [if_neg hz] at h
        obtain ⟨hk, hq⟩ := ih deg1 queue deg' queue' h
        refine ⟨by rw [hk, hkeq], ?_⟩
        intro x hx
        rcases hq x hx with hx' | hx'
        · exact Or.inl hx'
        · rw [hkeq] at hx'
          exact Or.inr hx'

theorem kahnLoop_graph :
    ∀ (fuel : Nat) (queue : List String) (deg : DegMap) (g : Graph)
      (acc : List String),
      (∀ x ∈ queue, x ∈ keysOf deg) →
      (∀ x ∈ keysOf deg, x ∈ keysOf g) →
      (kahnLoop fuel queue deg g acc).2 = g := by
  intro fuel
  induction fuel with
  | zero =>
    intro queue deg g acc _ _
    cases queue with
    | nil => rfl
    | cons lib q => rfl
  | succ fuel ih =>
    intro queue deg g acc hq hkg
    cases queue with
    | nil => rfl
    | cons lib q =>
      have hlib : lib ∈ keysOf g := hkg lib (hq lib (List.mem_cons_self _ _))
      obtain ⟨edges, hedges⟩ :=
        Option.isSome_iff_exists.mp ((alookup_isSome_iff g lib).mpr hlib)
      have hd : dget g lib = (edges, g) := by rw [dget, hedges]
      cases hs : stepEdges edges deg q with
      | none => simp only [kahnLoop, hd, hs]
      | some p =>
        obtain ⟨deg', queue'⟩ := p
        obtain ⟨hkeq, hqmem⟩ := stepEdges_keys edges deg q deg' queue' hs
        have hq' : ∀ x ∈ queue', x ∈ keysOf deg' := by
          intro x hx
          rw [hkeq]
          rcases hqmem x hx with h | h
          · exact hq x (List.mem_cons_of_mem _ h)
          · exact h
        have hkg' : ∀ x ∈ keysOf deg', x ∈ keysOf g := by
          intro x hx
          rw [hkeq] at hx
          exact hkg x hx
        simp only [kahnLoop, hd, hs]
        exact ih queue' deg' g (acc ++ [lib]) hq' hkg'

theorem mem_keysOf_insertZero (d : DegMap) (k x : String) :
    x ∈ keysOf (zeroDegrees.insertZero d k) ↔ x ∈ keysOf d ∨ x = k := by
  induction d with
  | nil => simp [zeroDegrees.insertZero, keysOf]
  | cons p rest ih =>
    obtain ⟨k', v⟩ := p
    by_cases h : k' = k
    · subst h
      rw [zeroDegrees.insertZero, if_pos rfl, keysOf_cons, keysOf_cons]
      simp only [List.mem_cons]
      constructor
      · rintro (h | h)
        · exact Or.inr h
        · exact Or.inl (Or.inr h)
      · rintro ((h | h) | h)
        · exact Or.inl h
        · exact Or.inr h
        · exact Or.inl h
    · rw [zeroDegrees.insertZero, if_neg h, keysOf_cons, keysOf_cons]
      simp only [List.mem_cons, ih]
      rw [or_assoc]

theorem mem_keysOf_zeroDegrees (g : Graph) (x : String) :
    x ∈ keysOf (zeroDegrees g) ↔ x ∈ keysOf g := by
  have haux : ∀ (g' : Graph) (d : DegMap),
      (x ∈ keysOf (g'.foldl (fun d p => zeroDegrees.insertZero d p.1) d) ↔
        x ∈ keysOf d ∨ x ∈ keysOf g') := by
    intro g'
    induction g' with
    | nil => intro d; simp [keysOf_nil]
    | cons p rest ih =>
      intro d
      rw [List.foldl_cons, ih, mem_keysOf_insertZero, keysOf_cons,
        List.mem_cons]
      constructor
      · rintro ((h | h) | h)
        · exact Or.inl h
        · exact Or.inr (Or.inl h)
        · exact Or.inr (Or.inr h)
      · rintro (h | (h | h))
        · exact Or.inl (Or.inl h)
        · exact Or.inl (Or.inr h)
        · exact Or.inr h
  have h2 : zeroDegrees g = g.foldl (fun d p => zeroDegrees.insertZero d p.1) [] := by
    simp [zeroDegrees]
  rw [h2, haux g []]
  simp [keysOf_nil]

theorem topological_sort_graph (g : Graph) : (topological_sort g).2 = g := by
  cases hdeg : computeInDegree g with
  | none => simp [topological_sort, hdeg]
  | some deg =>
    have hdk : ∀ x ∈ keysOf deg, x ∈ keysOf g := by
      intro x hx
      rw [computeInDegree] at hdeg
      rw [addAllEdges_keysOf _ _ _ hdeg] at hx
      exact (mem_keysOf_zeroDegrees g x).mp hx
    have hq : ∀ x ∈ initialQueue deg, x ∈ keysOf deg :=
      fun x hx => (initialQueue_sublist deg).subset hx
    have hgr := kahnLoop_graph g.length (initialQueue deg) deg g [] hq hdk
    rcases hres : kahnLoop g.length (initialQueue deg) deg g [] with ⟨o, gr⟩
    rw [hres] at hgr
    cases o with
    | none => simpa [topological_sort, hdeg, hres] using hgr
    | some p =>
      obtain ⟨order, degf⟩ := p
      by_cases hlen : order.length ≠ gr.length <;>
        simpa [topological_sort, hdeg, hres, hlen] using hgr

/-! ## The frontier is consumed first-in first-out -/

theorem kahnLoop_prefix :
    ∀ (fuel : Nat) (queue : List String) (deg : DegMap) (g : Graph)
      (acc order : List String) (degf : DegMap) (gf : Graph),
      kahnLoop fuel queue deg g acc = (some (order, degf), gf) →
      acc.IsPrefix order := by
  intro fuel
  induction fuel with
  | zero =>
    intro queue deg g acc order degf gf h
    cases queue with
    | nil =>
      rw [kahnLoop, Prod.mk.injEq, Option.some.injEq, Prod.mk.injEq] at h
      rw [← h.1.1]
    | cons lib q => exact absurd h (by rw [kahnLoop]; simp)
  | succ fuel ih =>
    intro queue deg g acc order degf gf h
    cases queue with
    | nil =>
      rw [kahnLoop, Prod.mk.injEq, Option.some.injEq, Prod.mk.injEq] at h
      rw [← h.1.1]
    | cons lib q =>
      rcases hdget : dget g lib with ⟨edges, g₁⟩
      simp only [kahnLoop, hdget] at h
      cases hs : stepEdges edges deg q with
      | none =>
        simp only [hs] at h
        rw [Prod.mk.injEq] at h
        exact absurd h.1 (by simp)
      | some p =>
        obtain ⟨deg1, q1⟩ := p
        simp only [hs] at h
        exact (List.prefix_append acc [lib]).trans (ih q1 deg1 g₁ _ order degf gf h)

theorem kahnLoop_head (fuel : Nat) (lib : String) (queue : List String)
    (deg : DegMap) (g : Graph) (order : List String) (degf : DegMap)
    (gf : Graph)
    (h : kahnLoop fuel (lib :: queue) deg g [] = (some (order, degf), gf)) :
    order.head? = some lib := by
  cases fuel with
  | zero => exact absurd h (by rw [kahnLoop]; simp)
  | succ fuel =>
    rcases hdget : dget g lib with ⟨edges, g₁⟩
    simp only [kahnLoop, hdget] at h
    cases hs : stepEdges edges deg queue with
    | none =>
      simp only [hs] at h
      rw [Prod.mk.injEq] at h
      exact absurd h.1 (by simp)
    | some p =>
      obtain ⟨deg1, q1⟩ := p
      simp only [hs] at h
      have hpre := kahnLoop_prefix fuel q1 deg1 g₁ ([] ++ [lib]) order degf gf h
      obtain ⟨t, ht⟩ := hpre
      rw [← ht]
      rfl

/-! ## Order properties -/

theorem sublist_pair_decomp (l : List String) (a b : String)
    (h : [a, b].Sublist l) :
    ∃ l₁ l₂ l₃, l = l₁ ++ a :: (l₂ ++ b :: l₃) := by
  induction l with
  | nil => exact absurd (h.subset (List.mem_cons_self _ _)) (List.not_mem_nil a)
  | cons c rest ih =>
    cases h with
    | cons _ h' =>
      obtain ⟨l₁, l₂, l₃, he⟩ := ih h'
      exact ⟨c :: l₁, l₂, l₃, by rw [he]; rfl⟩
    | cons₂ _ h' =>
      have hb : b ∈ rest := h'.subset (List.mem_cons_self _ _)
      obtain ⟨s, t, hst⟩ := List.append_of_mem hb
      exact ⟨[], s, t, by rw [hst]; rfl⟩

theorem sublist_pair_indexOf (l : List String) (a b : String)
    (hnd : l.Nodup) (h : [a, b].Sublist l) : l.indexOf a < l.indexOf b := by
  induction l with
  | nil => exact absurd (h.subset (List.mem_cons_self _ _)) (List.not_mem_nil a)
  | cons c rest ih =>
    have hcr : c ∉ rest := (List.nodup_cons.mp hnd).1
    cases h with
    | cons _ h' =>
      have ha : a ∈ rest := h'.subset (List.mem_cons_self _ _)
      have hb : b ∈ rest := h'.subset (by simp)
      have hca : c ≠ a := fun he => hcr (he ▸ ha)
      have hcb : c ≠ b := fun he => hcr (he ▸ hb)
      rw [List.indexOf_cons_ne _ hca, List.indexOf_cons_ne _ hcb]
      have := ih (List.nodup_cons.mp hnd).2 h'
      omega
    | cons₂ _ h' =>
      have hb : b ∈ rest := h'.subset (List.mem_cons_self _ _)
      have hab : a ≠ b := fun he => hcr (he ▸ hb)
      rw [List.indexOf_cons_self]
      rw [List.indexOf_cons_ne _ hab]
      omega

theorem transGen_indexOf (g : Graph) (order : List String)
    (hnd : order.Nodup)
    (hedge : ∀ a b, edgeOcc g a b → [a, b].Sublist order) :
    ∀ x y, Relation.TransGen (edgeOcc g) x y →
      order.indexOf x < order.indexOf y := by
  intro x y h
  induction h with
  | single h' => exact sublist_pair_indexOf order _ _ hnd (hedge _ _ h')
  | tail _ hyz ih =>
    exact ih.trans (sublist_pair_indexOf order _ _ hnd (hedge _ _ hyz))

/-! ## The master specification of `topological_sort` -/

theorem sort_spec (g : Graph) (hnd : (keysOf g).Nodup) (hclosed : ClosedG g) :
    ∃ order : List String,
      order.Nodup ∧ (∀ x ∈ order, x ∈ keysOf g) ∧
      (∀ a b, edgeOcc g a b → b ∈ order → [a, b].Sublist order) ∧
      (∀ k ∈ keysOf g, k ∉ order → ∃ a, edgeOcc g a k ∧ a ∉ order) ∧
      (order.length = g.length → (topological_sort g).1 = .ok order) ∧
      (order.length ≠ g.length → (topological_sort g).1 = .cycleDetected) ∧
      (order.length = g.length → order.Perm (keysOf g)) := by
  obtain ⟨deg, hdeg⟩ := (computeInDegree_some_iff g hnd).mpr hclosed
  have hinit := kahnInv_init g hnd hclosed deg hdeg
  have hbound : (keysOf g).length ≤ g.length + ([] : List String).length := by
    simp [keysOf]
  obtain ⟨order, deg', hloop, hfin, -⟩ :=
    kahnLoop_run g hnd hclosed g.length (initialQueue deg) deg [] hinit hbound
  obtain ⟨hno, hsub, hdesc⟩ := kahnInv_final g deg' order hfin
  have hedge_acc : ∀ a b, edgeOcc g a b → b ∈ order → [a, b].Sublist order :=
    fun a b hab hb => hfin.edge_acc a b hab hb
  refine ⟨order, hno, hsub, hedge_acc, hdesc, ?_, ?_, ?_⟩
  · intro hlen
    simp [topological_sort, hdeg, hloop, hlen]
  · intro hlen
    simp [topological_sort, hdeg, hloop, hlen]
  · intro hlen
    have hsp : List.Subperm order (keysOf g) :=
      List.subperm_of_subset hno hsub
    apply hsp.perm_of_length_le
    have : (keysOf g).length = g.length := by simp [keysOf]
    omega

/-! ## Pipeline-level helper lemmas -/

theorem build_closed (entries : List DirEntry)
    (readelf : String → ReadelfResult) (gd : Graph × List String)
    (hb : build_dependency_graph entries readelf = some gd) :
    ClosedG gd.1 := by
  rw [build_eq] at hb
  rcases gd with ⟨g, diags⟩
  intro p hp b hb'
  have hedges : ∀ q ∈ g, ∀ x ∈ q.2, x ∈ (resolve_symlinks entries).2 := by
    apply addLibDeps_edges _ _ _ _ _ _ _ hb
    apply edges_addSymlinkEdges
    intro q hq
    exact absurd hq (List.not_mem_nil q)
  have hbavail : b ∈ (resolve_symlinks entries).2 := hedges p hp b hb'
  have hkeys := addLibDeps_mem_keys _ _ _ _ _ _ _ hb b
  exact hkeys.mpr (Or.inr hbavail)

theorem build_nodup (entries : List DirEntry)
    (readelf : String → ReadelfResult) (gd : Graph × List String)
    (hb : build_dependency_graph entries readelf = some gd) :
    (keysOf gd.1).Nodup := by
  rw [build_eq] at hb
  rcases gd with ⟨g, diags⟩
  apply addLibDeps_nodup _ _ _ _ _ _ _ hb
  apply nodup_addSymlinkEdges
  simp [keysOf_nil]

theorem sort_ok_elim (g : Graph) (order : List String)
    (hnd : (keysOf g).Nodup)
    (hok : (topological_sort g).1 = .ok order) :
    order.Perm (keysOf g) ∧
    (∀ a b, edgeOcc g a b → [a, b].Sublist order) := by
  cases hdeg : computeInDegree g with
  | none => rw [topological_sort, hdeg] at hok; exact absurd hok (by simp)
  | some deg =>
    have hclosed : ClosedG g :=
      (computeInDegree_some_iff g hnd).mp ⟨deg, hdeg⟩
    obtain ⟨order₀, hno, hsub, hed, hdesc, hok_eq, hcyc_eq, hperm⟩ :=
      sort_spec g hnd hclosed
    by_cases hlen : order₀.length = g.length
    · have heq : order₀ = order := by
        have := hok_eq hlen
        rw [this] at hok
        exact (SortResult.ok.injEq _ _).mp hok
      subst heq
      have hp := hperm hlen
      refine ⟨hp, ?_⟩
      intro a b hab
      apply hed a b hab
      rcases hab with ⟨p, hp', -, hb'⟩
      exact hp.mem_iff.mpr (hclosed p hp' b hb')
    · have := hcyc_eq hlen
      rw [this] at hok
      exact absurd hok (by simp)

/-! ## Claim theorems -/

/-- C1: for every dependency graph on which `topological_sort` succeeds
and every edge occurrence `a → b` of that graph (`a` depends on `b`),
`a` appears strictly before `b` in the returned order: the sorter emits
sources before the nodes they point to. -/
theorem C1_dependent_precedes_dependency (g : Graph) (order : List String)
    (hnd : (keysOf g).Nodup)
    (hok : (topological_sort g).1 = .ok order)
    (a b : String) (hab : edgeOcc g a b) :
    ∃ l₁ l₂ l₃, order = l₁ ++ a :: (l₂ ++ b :: l₃) := by
  obtain ⟨-, hed⟩ := sort_ok_elim g order hnd hok
  exact sublist_pair_decomp order a b (hed a b hab)

/-- Witness for C1 at a concrete two-node graph with edge
`a.so → b.so`: the sorter succeeds and `a.so` precedes `b.so`. -/
theorem C1_witness :
    ((keysOf [("a.so", ["b.so"]), ("b.so", [])]).Nodup ∧
      (topological_sort [("a.so", ["b.so"]), ("b.so", [])]).1 =
        .ok ["a.so", "b.so"] ∧
      edgeOcc [("a.so", ["b.so"]), ("b.so", [])] "a.so" "b.so") ∧
    (∃ l₁ l₂ l₃, ["a.so", "b.so"] = l₁ ++ "a.so" :: (l₂ ++ "b.so" :: l₃)) := by
  refine ⟨⟨by decide, by decide, ?_⟩, ?_⟩
  · exact ⟨("a.so", ["b.so"]), by decide, rfl, by decide⟩
  · exact C1_dependent_precedes_dependency
      [("a.so", ["b.so"]), ("b.so", [])] ["a.so", "b.so"] (by decide)
      (by decide) "a.so" "b.so" ⟨("a.so", ["b.so"]), by decide, rfl, by decide⟩

/-- C2: on a well-formed dependency graph (a dict with no dangling edge
targets), `topological_sort` returns an order containing every node
exactly once (a permutation of the node set) precisely when the graph
is acyclic, and on a cyclic graph it raises the cycle error and returns
no partial order. -/
theorem C2_ok_iff_acyclic (g : Graph)
    (hnd : (keysOf g).Nodup) (hclosed : ClosedG g) :
    ((∃ order, (topological_sort g).1 = .ok order ∧
        order.Perm (keysOf g)) ↔ AcyclicG g) ∧
    (¬ AcyclicG g → (topological_sort g).1 = .cycleDetected) := by
  obtain ⟨order, hno, hsub, hed, hdesc, hok_eq, hcyc_eq, hperm⟩ :=
    sort_spec g hnd hclosed
  have hlen_le : order.length ≤ g.length := by
    have hsp : List.Subperm order (keysOf g) :=
      List.subperm_of_subset hno hsub
    have := hsp.length_le
    simp only [keysOf, List.length_map] at this
    exact this
  have dirA : order.length = g.length → AcyclicG g := by
    intro hlen
    have hp := hperm hlen
    have hedge_all : ∀ a b, edgeOcc g a b → [a, b].Sublist order := by
      intro a b hab
      apply hed a b hab
      rcases hab with ⟨p, hp', -, hb'⟩
      exact hp.mem_iff.mpr (hclosed p hp' b hb')
    intro a hcyc
    exact absurd (transGen_indexOf g order hno hedge_all a a hcyc)
      (lt_irrefl _)
  have dirB : AcyclicG g → order.length = g.length := by
    intro hacyc
    by_contra hlen
    have hlt : order.length < g.length := Nat.lt_of_le_of_ne hlen_le hlen
    have hmiss : ∃ k ∈ keysOf g, k ∉ order := by
      by_contra hall
      push_neg at hall
      have hsp : List.Subperm (keysOf g) order :=
        List.subperm_of_subset hnd hall
      have := hsp.length_le
      simp only [keysOf, List.length_map] at this
      omega
    obtain ⟨k₀, hk₀, hk₀n⟩ := hmiss
    set U := (keysOf g).filter (fun k => decide (k ∉ order)) with hU
    have hUmem : ∀ k, k ∈ U ↔ k ∈ keysOf g ∧ k ∉ order := by
      intro k
      rw [hU, List.mem_filter]
      simp
    have hUne : U ≠ [] :=
      List.ne_nil_of_mem ((hUmem k₀).mpr ⟨hk₀, hk₀n⟩)
    have hpred : ∀ k ∈ U, ∃ a ∈ U, edgeOcc g a k := by
      intro k hk
      obtain ⟨hk1, hk2⟩ := (hUmem k).mp hk
      obtain ⟨a, haedge, hanot⟩ := hdesc k hk1 hk2
      exact ⟨a, (hUmem a).mpr ⟨edgeOcc_mem_keys g a k haedge, hanot⟩, haedge⟩
    obtain ⟨x, hx⟩ := cycle_of_descent g U hUne hpred
    exact hacyc x hx
  refine ⟨⟨?_, ?_⟩, ?_⟩
  · rintro ⟨order₀, hok₀, -⟩
    apply dirA
    by_contra hlen
    rw [hcyc_eq hlen] at hok₀
    exact absurd hok₀ (by simp)
  · intro hacyc
    exact ⟨order, hok_eq (dirB hacyc), hperm (dirB hacyc)⟩
  · intro hnacyc
    apply hcyc_eq
    intro hlen
    exact hnacyc (dirA hlen)

/-- Witness for C2 at the one-node acyclic graph. -/
theorem C2_witness :
    ((keysOf ([("a.so", [])] : Graph)).Nodup ∧
      ClosedG ([("a.so", [])] : Graph)) ∧
    (((∃ order, (topological_sort ([("a.so", [])] : Graph)).1 = .ok order ∧
        order.Perm (keysOf ([("a.so", [])] : Graph))) ↔
          AcyclicG ([("a.so", [])] : Graph)) ∧
      (¬ AcyclicG ([("a.so", [])] : Graph) →
        (topological_sort ([("a.so", [])] : Graph)).1 = .cycleDetected)) := by
  have hclosed : ClosedG ([("a.so", [])] : Graph) := by
    intro p hp b hb
    rw [List.mem_singleton] at hp
    subst hp
    exact absurd hb (List.not_mem_nil b)
  exact ⟨⟨by decide, hclosed⟩,
    C2_ok_iff_acyclic ([("a.so", [])] : Graph) (by decide) hclosed⟩

/-- C3 counterexample: a symbolic link named `foo` (not classified as a
shared-library artifact) pointing at the inventoried `liba.so` becomes
a node of the built graph, so the node set is not exactly the
inventoried names. -/
theorem C3_counterexample :
    build_dependency_graph
        [⟨"foo", some "liba.so"⟩, ⟨"liba.so", none⟩] (fun _ => .ok []) =
      some ([("foo", ["liba.so"]), ("liba.so", [])], []) ∧
    "foo" ∈ keysOf ([("foo", ["liba.so"]), ("liba.so", [])] : Graph) ∧
    is_shared_library "foo" = false ∧
    "foo" ∉ (resolve_symlinks [⟨"foo", some "liba.so"⟩, ⟨"liba.so", none⟩]).2 := by
  refine ⟨by decide, by decide, by decide, by decide⟩

/-- C3 amended: the node set of the built graph is exactly the
inventoried shared-library names together with the names of symlinks
whose immediate target is an inventoried name; in particular a symlink
whose own name is not a shared-library artifact still becomes a node
when (and only when) its target is inventoried. -/
theorem C3_node_set (entries : List DirEntry)
    (readelf : String → ReadelfResult) (gd : Graph × List String)
    (hb : build_dependency_graph entries readelf = some gd) (x : String) :
    x ∈ keysOf gd.1 ↔
      (x ∈ (resolve_symlinks entries).2 ∨
        ∃ t, (x, t) ∈ (resolve_symlinks entries).1 ∧
          t ∈ (resolve_symlinks entries).2) := by
  rw [build_eq] at hb
  rcases gd with ⟨g, diags⟩
  have h1 := addLibDeps_mem_keys _ _ _ _ _ _ _ hb x
  rw [h1, mem_keysOf_addSymlinkEdges]
  rw [keysOf_nil]
  constructor
  · rintro (h | h)
    · rcases h with h | h
      · exact absurd h (List.not_mem_nil x)
      · exact Or.inr h
    · exact Or.inl h
  · rintro (h | h)
    · exact Or.inr h
    · exact Or.inl (Or.inr h)

/-- Witness for C3's amended statement at the counterexample scan. -/
theorem C3_witness :
    (build_dependency_graph
        [⟨"foo", some "liba.so"⟩, ⟨"liba.so", none⟩] (fun _ => .ok []) =
      some ([("foo", ["liba.so"]), ("liba.so", [])], [])) ∧
    ("foo" ∈ keysOf ([("foo", ["liba.so"]), ("liba.so", [])] : Graph) ↔
      ("foo" ∈ (resolve_symlinks
          [⟨"foo", some "liba.so"⟩, ⟨"liba.so", none⟩]).2 ∨
        ∃ t, ("foo", t) ∈ (resolve_symlinks
            [⟨"foo", some "liba.so"⟩, ⟨"liba.so", none⟩]).1 ∧
          t ∈ (resolve_symlinks
            [⟨"foo", some "liba.so"⟩, ⟨"liba.so", none⟩]).2)) := by
  refine ⟨by decide, ?_⟩
  exact C3_node_set [⟨"foo", some "liba.so"⟩, ⟨"liba.so", none⟩]
    (fun _ => .ok []) ([("foo", ["liba.so"]), ("liba.so", [])], [])
    (by decide) "foo"

/-- C4: every edge of the built graph points at a node of the graph:
declared dependencies and symlink targets outside the inventory produce
no edge, and no dangling edge survives into the graph. -/
theorem C4_edge_targets_are_nodes (entries : List DirEntry)
    (readelf : String → ReadelfResult) (gd : Graph × List String)
    (hb : build_dependency_graph entries readelf = some gd) :
    ∀ p ∈ gd.1, ∀ b ∈ p.2, b ∈ keysOf gd.1 :=
  build_closed entries readelf gd hb

/-- Witness for C4 at a scan with one external (filtered) dependency. -/
theorem C4_witness :
    (build_dependency_graph [⟨"libx.so", none⟩]
        (fun _ => .ok ["(NEEDED) [libc.so.6]"]) =
      some ([("libx.so", [])], [])) ∧
    (∀ p ∈ ([("libx.so", [])] : Graph), ∀ b ∈ p.2,
      b ∈ keysOf ([("libx.so", [])] : Graph)) := by
  refine ⟨by decide, ?_⟩
  exact C4_edge_targets_are_nodes [⟨"libx.so", none⟩]
    (fun _ => .ok ["(NEEDED) [libc.so.6]"]) ([("libx.so", [])], []) (by decide)

/-- C5: the extractor's result is exactly the parsed `NEEDED` names
filtered to those character-for-character equal to an inventoried name
(everything else is dropped), and the declaring library is still a node
of the built graph. -/
theorem C5_exact_name_filtering (lib : String) (res : ReadelfResult)
    (avail : List String) (deps diags : List String)
    (hg : get_dependencies lib res avail = some (deps, diags)) :
    (∀ d ∈ deps, d ∈ avail) ∧
    (∀ lines, res = .ok lines →
      ∀ raw, neededNames lines = some raw →
        deps = raw.filter (fun d => decide (d ∈ avail))) ∧
    (∀ entries readelf gd,
      build_dependency_graph entries readelf = some gd →
      lib ∈ (resolve_symlinks entries).2 → lib ∈ keysOf gd.1) := by
  refine ⟨get_dependencies_mem lib res avail deps diags hg, ?_, ?_⟩
  · intro lines hres raw hraw
    subst hres
    rw [get_dependencies] at hg
    rw [collectDeps_eq_filter, hraw, Option.map_some'] at hg
    rw [Option.some.injEq, Prod.mk.injEq] at hg
    exact hg.1.symm
  · intro entries readelf gd hb hlib
    rw [build_eq] at hb
    exact (addLibDeps_mem_keys _ _ _ _ _ _ _ hb lib).mpr (Or.inr hlib)

/-- Witness for C5: one matching and one external `NEEDED` entry. -/
theorem C5_witness :
    (get_dependencies "libx.so"
        (.ok ["(NEEDED) [liby.so]", "(NEEDED) [libc.so.6]"]) ["liby.so"] =
      some (["liby.so"], [])) ∧
    ((∀ d ∈ (["liby.so"] : List String), d ∈ (["liby.so"] : List String)) ∧
      (∀ lines, (ReadelfResult.ok ["(NEEDED) [liby.so]", "(NEEDED) [libc.so.6]"]) = .ok lines →
        ∀ raw, neededNames lines = some raw →
          (["liby.so"] : List String) =
            raw.filter (fun d => decide (d ∈ (["liby.so"] : List String)))) ∧
      (∀ entries readelf gd,
        build_dependency_graph entries readelf = some gd →
        "libx.so" ∈ (resolve_symlinks entries).2 →
        "libx.so" ∈ keysOf gd.1)) := by
  refine ⟨by decide, ?_⟩
  exact C5_exact_name_filtering "libx.so"
    (.ok ["(NEEDED) [liby.so]", "(NEEDED) [libc.so.6]"]) ["liby.so"]
    ["liby.so"] [] (by decide)

/-- C6: when the collaborator fails for a library, the extractor
returns zero dependencies and records a diagnostic; the run continues:
the library is still a node, its edges are only symlink-derived, the
diagnostic appears in the build output, and on a successful sort the
library appears in the final order. -/
theorem C6_collaborator_failure_degrades (lib : String)
    (entries : List DirEntry) (readelf : String → ReadelfResult)
    (gd : Graph × List String)
    (herr : readelf lib = .err)
    (hlib : lib ∈ (resolve_symlinks entries).2)
    (hnames : (resolve_symlinks entries).2.Nodup)
    (hb : build_dependency_graph entries readelf = some gd) :
    (∀ avail, get_dependencies lib (readelf lib) avail =
      some ([], ["Error reading dependencies for " ++ lib])) ∧
    lib ∈ keysOf gd.1 ∧
    ("Error reading dependencies for " ++ lib) ∈ gd.2 ∧
    (∀ d ∈ (alookup gd.1 lib).getD [],
      (lib, d) ∈ (resolve_symlinks entries).1 ∧
        d ∈ (resolve_symlinks entries).2) ∧
    (∀ order, (topological_sort gd.1).1 = .ok order → lib ∈ order) := by
  have hbe := hb
  rw [build_eq] at hbe
  rcases gd with ⟨g, diags⟩
  refine ⟨?_, ?_, ?_, ?_, ?_⟩
  · intro avail
    rw [herr]
    rfl
  · exact (addLibDeps_mem_keys _ _ _ _ _ _ _ hbe lib).mpr (Or.inr hlib)
  · exact addLibDeps_err_diag _ _ _ _ _ _ _ lib hbe hlib herr
  · obtain ⟨deps, ds, hget, hlook⟩ :=
      addLibDeps_lookup_mem _ _ _ _ _ _ _ lib hbe hnames hlib
    rw [herr] at hget
    rw [get_dependencies, Option.some.injEq, Prod.mk.injEq] at hget
    rw [← hget.1, List.append_nil] at hlook
    intro d hd
    rw [hlook, Option.getD_some] at hd
    have := lookup_addSymlinkEdges (resolve_symlinks entries).2
      (resolve_symlinks entries).1 [] lib d hd
    rcases this with h | h
    · rw [alookup] at h
      exact absurd h (List.not_mem_nil d)
    · exact h
  · intro order hok
    have hnd : (keysOf g).Nodup :=
      build_nodup entries readelf (g, diags) hb
    obtain ⟨hperm, -⟩ := sort_ok_elim g order hnd hok
    apply hperm.mem_iff.mpr
    exact (addLibDeps_mem_keys _ _ _ _ _ _ _ hbe lib).mpr (Or.inr hlib)

/-- Witness for C6: `libbroken.so` fails metadata inspection, the run
completes, and `libbroken.so` is in the final order. -/
theorem C6_witness :
    (((fun n => if n = "libbroken.so" then ReadelfResult.err
        else ReadelfResult.ok []) "libbroken.so" = .err) ∧
      "libbroken.so" ∈ (resolve_symlinks
        [⟨"libbroken.so", none⟩, ⟨"liba.so", none⟩]).2 ∧
      (resolve_symlinks [⟨"libbroken.so", none⟩, ⟨"liba.so", none⟩]).2.Nodup ∧
      build_dependency_graph [⟨"libbroken.so", none⟩, ⟨"liba.so", none⟩]
          (fun n => if n = "libbroken.so" then ReadelfResult.err
            else ReadelfResult.ok []) =
        some ([("libbroken.so", []), ("liba.so", [])],
          ["Error reading dependencies for libbroken.so"])) ∧
    ("libbroken.so" ∈
        keysOf ([("libbroken.so", []), ("liba.so", [])] : Graph) ∧
      ("Error reading dependencies for " ++ "libbroken.so") ∈
        ["Error reading dependencies for libbroken.so"]) := by
  refine ⟨⟨by decide, by decide, by decide, by decide⟩, ?_⟩
  have h := C6_collaborator_failure_degrades "libbroken.so"
    [⟨"libbroken.so", none⟩, ⟨"liba.so", none⟩]
    (fun n => if n = "libbroken.so" then ReadelfResult.err
      else ReadelfResult.ok [])
    (([("libbroken.so", []), ("liba.so", [])],
      ["Error reading dependencies for libbroken.so"]))
    (by decide) (by decide) (by decide) (by decide)
  exact ⟨h.2.1, h.2.2.1⟩

/-- C7: a file name is classified as a shared-library artifact exactly
when it ends with the literal suffix `.so` or contains the substring
`.so.` anywhere in the name. -/
theorem C7_classification_rule (filename : String) :
    is_shared_library filename = true ↔
      (".so".data <:+ filename.data ∨ ".so.".data <:+: filename.data) := by
  rw [is_shared_library, Bool.or_eq_true, List.isSuffixOf_iff_suffix,
    hasSub_iff]

/-- C8: the pipeline is deterministic — equal scans and collaborator
outputs give equal graphs and equal sorts — and ties among frontier
nodes are broken in first-discovered FIFO order: the head of the
initial frontier is always emitted first. -/
theorem C8_determinism_and_fifo :
    (∀ (e₁ e₂ : List DirEntry) (r₁ r₂ : String → ReadelfResult),
      e₁ = e₂ → (∀ l, r₁ l = r₂ l) →
      build_dependency_graph e₁ r₁ = build_dependency_graph e₂ r₂) ∧
    (∀ g₁ g₂ : Graph, g₁ = g₂ → topological_sort g₁ = topological_sort g₂) ∧
    (∀ (g : Graph) (deg : DegMap) (x : String) (rest : List String)
      (order : List String),
      computeInDegree g = some deg → initialQueue deg = x :: rest →
      (topological_sort g).1 = .ok order → order.head? = some x) := by
  refine ⟨?_, ?_, ?_⟩
  · intro e₁ e₂ r₁ r₂ he hr
    subst he
    rw [funext hr]
  · intro g₁ g₂ h
    rw [h]
  · intro g deg x rest order hdeg hq hok
    simp only [topological_sort, hdeg] at hok
    rw [hq] at hok
    rcases hres : kahnLoop g.length (x :: rest) deg g [] with ⟨o, gr⟩
    rw [hres] at hok
    cases o with
    | none => exact absurd hok (by simp)
    | some p =>
      obtain ⟨order₀, degf⟩ := p
      have hok' : (if order₀.length ≠ gr.length then (SortResult.cycleDetected, gr)
          else (SortResult.ok order₀, gr)).1 = SortResult.ok order := hok
      by_cases hlen : order₀.length ≠ gr.length
      · rw [if_pos hlen] at hok'
        exact absurd hok' (by simp)
      · rw [if_neg hlen] at hok'
        have heq' : order₀ = order := by simpa using hok'
        rw [← heq']
        exact kahnLoop_head g.length x rest deg g order₀ degf gr hres

/-- Witness for C8: a concrete rerun of the pipeline plus the FIFO
property on a two-seed frontier. -/
theorem C8_witness :
    (build_dependency_graph [⟨"liba.so", none⟩] (fun _ => .ok []) =
      build_dependency_graph [⟨"liba.so", none⟩] (fun _ => .ok [])) ∧
    (topological_sort [("a.so", []), ("b.so", [])] =
      topological_sort [("a.so", []), ("b.so", [])]) ∧
    (["a.so", "b.so"].head? = some "a.so") := by
  refine ⟨?_, ?_, ?_⟩
  · exact C8_determinism_and_fifo.1 [⟨"liba.so", none⟩] [⟨"liba.so", none⟩]
      (fun _ => .ok []) (fun _ => .ok []) rfl (fun _ => rfl)
  · exact C8_determinism_and_fifo.2.1 [("a.so", []), ("b.so", [])]
      [("a.so", []), ("b.so", [])] rfl
  · exact C8_determinism_and_fifo.2.2 [("a.so", []), ("b.so", [])]
      [("a.so", (0 : Int)), ("b.so", (0 : Int))] "a.so" ["b.so"]
      ["a.so", "b.so"] (by decide) (by decide) (by decide)

/-- C9: `topological_sort` consumes the graph read-only: for every
input graph (success, cycle error, or key error alike) the graph dict
is unchanged when the sort finishes; in particular the `defaultdict`
lookup of a dequeued node never inserts a new node. -/
theorem C9_sort_is_read_only (g : Graph) : (topological_sort g).2 = g :=
  topological_sort_graph g

/-- C10: the zero-dependency fallback covers only the collaborator's
own failure; a `NEEDED` line without a bracketed name makes
`get_dependencies` raise an uncaught `IndexError` (no empty-list
fallback), which aborts the whole build. -/
theorem C10_malformed_line_aborts :
    get_dependencies "libx.so"
        (.ok ["0x0001 (NEEDED) Shared library: liby.so"]) ["liby.so"] =
      none ∧
    (∀ avail, get_dependencies "libx.so" .err avail =
      some ([], ["Error reading dependencies for libx.so"])) ∧
    build_dependency_graph [⟨"libx.so", none⟩]
        (fun _ => .ok ["0x0001 (NEEDED) Shared library: liby.so"]) =
      none := by
  refine ⟨by decide, fun avail => rfl, by decide⟩

end DepSort
